import Mathlib

/-!
Verification development for the Matched Funding engine
(`rs/nns/governance/src/neurons_fund.rs`).

The Rust code is shallowly embedded as executable Lean definitions:

* `u64` values become `ℕ` with explicit saturation at `U64MAX` where the
  source uses `saturating_add` / `saturating_mul`;
* `rust_decimal::Decimal` becomes the executable fraction type `Dec`
  (an integer numerator with a positive natural denominator), with exact
  rational semantics and explicit saturation at the decimal MAX constant
  for the `saturating_add` / `saturating_mul` operations of the source;
* `BTreeMap<NeuronId, _>` becomes an association list kept sorted by
  strictly increasing neuron id via `NeuronsFundSnapshot.new`;
* `BTreeSet<NeuronsFundNeuronPortion>` becomes a list kept sorted by the
  source's `Ord` key (controller, then maturity) with first-wins
  deduplication, mirroring `BTreeSet::insert`;
* Rust panics (division by zero, `unreachable!`) are modelled by the
  `PanicOr` wrapper, while `Result::Err` values become `Except.error`.
-/

/-- `u64::MAX`. -/
def U64MAX : ℕ := 18446744073709551615

/-- `u64::saturating_add` on the `ℕ` model of `u64`. -/
def satAdd (a b : ℕ) : ℕ := min (a + b) U64MAX

/-- Marks a value that is either a Rust panic or an ordinary result. -/
inductive PanicOr (α : Type) where
  | panicked : String → PanicOr α
  | value : α → PanicOr α
deriving Repr, DecidableEq

/-- Whether a `PanicOr` computation panicked. -/
def PanicOr.isPanic {α : Type} : PanicOr α → Bool
  | .panicked _ => true
  | .value _ => false

/-- Executable model of `rust_decimal::Decimal`: an exact fraction
`num / den`.  Every value produced by the embedded code has `0 < den`.
The 28-digit precision limit of the 96-bit decimal type is not modelled
(arithmetic is exact); its `MAX` bound is modelled by the saturating
operations below, mirroring the source's use of `saturating_add` and
`saturating_mul`. -/
structure Dec where
  num : ℤ
  den : ℕ
deriving Repr, DecidableEq

/-- Well-formedness of a `Dec` value: the denominator is positive. -/
def Dec.WF (a : Dec) : Prop := 0 < a.den

/-- Rational value of a `Dec`. -/
def Dec.toRat (a : Dec) : ℚ := (a.num : ℚ) / (a.den : ℚ)

/-- Embedding of a `u64` into `Dec`; this is `u64_to_dec` of the source
(`Decimal::from_u64`, which cannot fail). -/
def u64_to_dec (x : ℕ) : Dec := ⟨x, 1⟩

/-- `Decimal` addition (exact). -/
def Dec.add (a b : Dec) : Dec := ⟨a.num * b.den + b.num * a.den, a.den * b.den⟩

/-- `Decimal` multiplication (exact). -/
def Dec.mul (a b : Dec) : Dec := ⟨a.num * b.num, a.den * b.den⟩

/-- `Decimal` division (exact).  When the divisor is zero the result has a
zero denominator; the source panics there, and the embedding performs the
corresponding zero-divisor check explicitly at each use site. -/
def Dec.div (a b : Dec) : Dec := ⟨a.num * (b.den : ℤ) * b.num.sign, a.den * b.num.natAbs⟩

/-- `Decimal` comparison `a < b` (cross multiplication; exact on
well-formed values). -/
def Dec.blt (a b : Dec) : Bool := a.num * (b.den : ℤ) < b.num * (a.den : ℤ)

/-- `Decimal` comparison `a ≤ b`. -/
def Dec.ble (a b : Dec) : Bool := a.num * (b.den : ℤ) ≤ b.num * (a.den : ℤ)

/-- `Decimal` value equality. -/
def Dec.beq (a b : Dec) : Bool := a.num * (b.den : ℤ) == b.num * (a.den : ℤ)

/-- `Decimal::min`. -/
def Dec.minD (a b : Dec) : Dec := if Dec.ble a b then a else b

/-- `Decimal::is_sign_negative` (on well-formed values). -/
def Dec.isNeg (a : Dec) : Bool := a.num < 0

/-- `Decimal::MAX = 79228162514264337593543950335`. -/
def decMAXnum : ℤ := 79228162514264337593543950335

/-- `Decimal::MAX` as a `Dec`. -/
def decMAX : Dec := ⟨decMAXnum, 1⟩

/-- `Decimal::MIN` as a `Dec`. -/
def decMIN : Dec := ⟨-decMAXnum, 1⟩

/-- `Decimal::saturating_add`: exact addition clamped to
`[Decimal::MIN, Decimal::MAX]`. -/
def Dec.satAddD (a b : Dec) : Dec :=
  let s := Dec.add a b
  if Dec.blt decMAX s then decMAX else if Dec.blt s decMIN then decMIN else s

/-- `Decimal::saturating_mul`: exact multiplication clamped to
`[Decimal::MIN, Decimal::MAX]`. -/
def Dec.satMulD (a b : Dec) : Dec :=
  let s := Dec.mul a b
  if Dec.blt decMAX s then decMAX else if Dec.blt s decMIN then decMIN else s

/-- Rounding to an integer with `RoundingStrategy::MidpointNearestEven`
(banker's rounding), on the fraction representation.  For a positive
denominator, `Int.ediv`/`Int.emod` give the floor and the nonnegative
remainder, so this is round-half-to-even. -/
def Dec.roundTE (a : Dec) : ℤ :=
  let d : ℤ := (a.den : ℤ)
  let f := a.num.ediv d
  let r := a.num.emod d
  if 2 * r < d then f
  else if d < 2 * r then f + 1
  else if f % 2 = 0 then f else f + 1

/-- The canonical converter `dec_to_u64` of the source: fails on negative
input, rounds half-to-even, fails on overflow beyond `u64::MAX`. -/
def dec_to_u64 (x : Dec) : Except String ℕ :=
  if Dec.isNeg x then .error "Cannot convert negative value to u64."
  else
    let n := Dec.roundTE x
    if n > (U64MAX : ℤ) then .error "Overflow while trying to convert value to u64."
    else .ok n.toNat

/-- `MAX_THEORETICAL_NEURONS_FUND_PARTICIPATION_AMOUNT_ICP_E8S = 333_000 * E8`. -/
def MAX_THEORETICAL_NEURONS_FUND_PARTICIPATION_AMOUNT_ICP_E8S : ℕ := 333000 * 100000000

/-- `MAX_LINEAR_SCALING_COEFFICIENT_VEC_LEN = 100_000`. -/
def MAX_LINEAR_SCALING_COEFFICIENT_VEC_LEN : ℕ := 100000

/-- `MAX_NEURONS_FUND_PARTICIPATION_BASIS_POINTS = 1_000` (10%). -/
def MAX_NEURONS_FUND_PARTICIPATION_BASIS_POINTS : ℕ := 1000

/-- `BASIS_POINTS_PER_UNITY = 10_000`. -/
def BASIS_POINTS_PER_UNITY : ℕ := 10000

/-- `take_max_initial_neurons_fund_participation_percentage`: 10% of the
argument, computed as `1000 / 10000` basis points in `u128` arithmetic
(saturating multiplication and division cannot actually saturate here)
clamped to `u64::MAX`. -/
def take_max_initial_neurons_fund_participation_percentage (x : ℕ) : ℕ :=
  min (x * MAX_NEURONS_FUND_PARTICIPATION_BASIS_POINTS / BASIS_POINTS_PER_UNITY) U64MAX

/-- Wire-level `LinearScalingCoefficient` (all fields optional). -/
structure LinearScalingCoefficient where
  from_direct_participation_icp_e8s : Option ℕ
  to_direct_participation_icp_e8s : Option ℕ
  slope_numerator : Option ℕ
  slope_denominator : Option ℕ
  intercept_icp_e8s : Option ℕ
deriving Repr, DecidableEq

/-- `ValidatedLinearScalingCoefficient`. -/
structure ValidatedLinearScalingCoefficient where
  from_direct_participation_icp_e8s : ℕ
  to_direct_participation_icp_e8s : ℕ
  slope_numerator : ℕ
  slope_denominator : ℕ
  intercept_icp_e8s : ℕ
deriving Repr, DecidableEq

/-- `impl From<ValidatedLinearScalingCoefficient> for LinearScalingCoefficient`. -/
def ValidatedLinearScalingCoefficient.toPb (v : ValidatedLinearScalingCoefficient) :
    LinearScalingCoefficient :=
  ⟨some v.from_direct_participation_icp_e8s, some v.to_direct_participation_icp_e8s,
    some v.slope_numerator, some v.slope_denominator, some v.intercept_icp_e8s⟩

/-- `impl TryFrom<LinearScalingCoefficient> for ValidatedLinearScalingCoefficient`.
The error variants are rendered as strings. -/
def LinearScalingCoefficient.tryFrom (value : LinearScalingCoefficient) :
    Except String ValidatedLinearScalingCoefficient :=
  match value.from_direct_participation_icp_e8s with
  | none => .error "UnspecifiedField from_direct_participation_icp_e8s"
  | some f =>
    match value.to_direct_participation_icp_e8s with
    | none => .error "UnspecifiedField to_direct_participation_icp_e8s"
    | some t =>
      match value.slope_numerator with
      | none => .error "UnspecifiedField slope_numerator"
      | some sn =>
        match value.slope_denominator with
        | none => .error "UnspecifiedField slope_denominator"
        | some sd =>
          match value.intercept_icp_e8s with
          | none => .error "UnspecifiedField intercept_icp_e8s"
          | some ic =>
            if t ≤ f then .error "EmptyInterval"
            else if sd = 0 then .error "DenominatorIsZero"
            else if sn > sd then .error "NumeratorGreaterThanDenominator"
            else .ok ⟨f, t, sn, sd, ic⟩

/-- Wire-level `NeuronsFundParticipationConstraints`. -/
structure NeuronsFundParticipationConstraints where
  min_direct_participation_threshold_icp_e8s : Option ℕ
  max_neurons_fund_participation_icp_e8s : Option ℕ
  coefficient_intervals : List LinearScalingCoefficient
deriving Repr, DecidableEq

/-- `ValidatedNeuronsFundParticipationConstraints`. -/
structure ValidatedNeuronsFundParticipationConstraints where
  min_direct_participation_threshold_icp_e8s : ℕ
  max_neurons_fund_participation_icp_e8s : ℕ
  coefficient_intervals : List ValidatedLinearScalingCoefficient
deriving Repr, DecidableEq

/-- Sequential validation of a list of wire coefficients, short-circuiting
at the first failure (the `collect::<Result<Vec<_>, _>>` of the source). -/
def validateCoefficientList : List LinearScalingCoefficient →
    Except String (List ValidatedLinearScalingCoefficient)
  | [] => .ok []
  | c :: cs =>
    match LinearScalingCoefficient.tryFrom c with
    | .error e => .error e
    | .ok v =>
      match validateCoefficientList cs with
      | .error e => .error e
      | .ok vs => .ok (v :: vs)

/-- Adjacent-chaining check of the source: every interval's `to` equals the
next interval's `from`. -/
def coefficientsChain : List ValidatedLinearScalingCoefficient → Bool
  | [] => true
  | [_] => true
  | a :: b :: rest =>
    a.to_direct_participation_icp_e8s == b.from_direct_participation_icp_e8s
      && coefficientsChain (b :: rest)

/-- `impl TryFrom<NeuronsFundParticipationConstraints> for
ValidatedNeuronsFundParticipationConstraints`. -/
def NeuronsFundParticipationConstraints.tryFrom
    (value : NeuronsFundParticipationConstraints) :
    Except String ValidatedNeuronsFundParticipationConstraints :=
  match value.min_direct_participation_threshold_icp_e8s with
  | none => .error "RelatedFieldUnspecified min_direct_participation_threshold_icp_e8s"
  | some minT =>
    match value.max_neurons_fund_participation_icp_e8s with
    | none => .error "RelatedFieldUnspecified max_neurons_fund_participation_icp_e8s"
    | some maxP =>
      if value.coefficient_intervals.length < 1
          ∨ MAX_LINEAR_SCALING_COEFFICIENT_VEC_LEN < value.coefficient_intervals.length then
        .error "LinearScalingCoefficientsOutOfRange"
      else
        match validateCoefficientList value.coefficient_intervals with
        | .error e => .error e
        | .ok intervals =>
          if !coefficientsChain intervals then .error "LinearScalingCoefficientsUnordered"
          else
            match intervals.head? with
            | some first =>
              if first.from_direct_participation_icp_e8s ≠ 0 then
                .error "IrregularLinearScalingCoefficients"
              else .ok ⟨minT, maxP, intervals⟩
            | none => .ok ⟨minT, maxP, intervals⟩

/-- The midpoint expression of `IntervalPartition::find_interval`:
`(((i as u32) + (j as u32)) / 2) as usize`.  The `as u32` casts truncate
modulo `2^32` and the `u32` addition wraps modulo `2^32` (release-build
semantics). -/
def find_interval_mid (i j : ℕ) : ℕ := ((i % 2 ^ 32 + j % 2 ^ 32) % 2 ^ 32) / 2

/-- `Interval::contains` for a validated coefficient: `from ≤ x < to`. -/
def ValidatedLinearScalingCoefficient.containsX
    (c : ValidatedLinearScalingCoefficient) (x : ℕ) : Prop :=
  c.from_direct_participation_icp_e8s ≤ x ∧ x < c.to_direct_participation_icp_e8s

instance (c : ValidatedLinearScalingCoefficient) (x : ℕ) :
    Decidable (c.containsX x) := by
  unfold ValidatedLinearScalingCoefficient.containsX; infer_instance

/-- The binary-search loop of `IntervalPartition::find_interval`, with an
explicit fuel argument standing in for the unbounded `while` loop (the
fuel is chosen large enough that exhaustion is unreachable in the cases
governed by the claims). -/
def find_interval_aux (l : List ValidatedLinearScalingCoefficient) (x : ℕ) :
    ℕ → ℕ → ℕ → Option ValidatedLinearScalingCoefficient
  | 0, _, _ => none
  | fuel + 1, i, j =>
    if i ≤ j then
      let m := find_interval_mid i j
      match l[m]? with
      | none => none
      | some c =>
        if c.to_direct_participation_icp_e8s ≤ x then
          find_interval_aux l x fuel (m + 1) j
        else if x < c.from_direct_participation_icp_e8s then
          if m = 0 then none else find_interval_aux l x fuel i (m - 1)
        else some c
    else none

/-- `IntervalPartition::find_interval` for the coefficient partition of a
validated constraints bundle. -/
def ValidatedNeuronsFundParticipationConstraints.find_interval
    (p : ValidatedNeuronsFundParticipationConstraints) (x : ℕ) :
    Option ValidatedLinearScalingCoefficient :=
  let intervals := p.coefficient_intervals
  if intervals.isEmpty then none
  else find_interval_aux intervals x (intervals.length + 1) 0 (intervals.length - 1)

/-- `MatchedParticipationFunction::apply`.  The function component of the
struct is passed as `f`.  The two branches that return `0` for an empty
partition or a failed interval lookup model the source's `assert!` and
`unreachable!` panics; both are unreachable for validated constraints,
which is the situation governed by the claims. -/
def MatchedParticipationFunction.apply
    (params : ValidatedNeuronsFundParticipationConstraints)
    (f : ℕ → Dec) (direct_participation_icp_e8s : ℕ) : Dec :=
  if direct_participation_icp_e8s < params.min_direct_participation_threshold_icp_e8s then
    u64_to_dec 0
  else
    match params.coefficient_intervals.head?, params.coefficient_intervals.getLast? with
    | some first, some last =>
      if direct_participation_icp_e8s < first.from_direct_participation_icp_e8s then
        u64_to_dec 0
      else if last.to_direct_participation_icp_e8s ≤ direct_participation_icp_e8s then
        u64_to_dec (min params.max_neurons_fund_participation_icp_e8s
          MAX_THEORETICAL_NEURONS_FUND_PARTICIPATION_AMOUNT_ICP_E8S)
      else
        match params.find_interval direct_participation_icp_e8s with
        | some c =>
          let ideal := f direct_participation_icp_e8s
          let intercept := u64_to_dec c.intercept_icp_e8s
          let slope_num := u64_to_dec c.slope_numerator
          let slope_den := u64_to_dec c.slope_denominator
          let hard_cap := u64_to_dec (min params.max_neurons_fund_participation_icp_e8s
            MAX_THEORETICAL_NEURONS_FUND_PARTICIPATION_AMOUNT_ICP_E8S)
          Dec.minD hard_cap
            (Dec.satAddD intercept (Dec.satMulD (Dec.div slope_num slope_den) ideal))
        | none => u64_to_dec 0
    | _, _ => u64_to_dec 0

/-- `Decimal` negation. -/
def Dec.negD (a : Dec) : Dec := ⟨-a.num, a.den⟩

/-- `Decimal` subtraction (exact). -/
def Dec.subD (a b : Dec) : Dec := Dec.add a (Dec.negD b)

/-- `Decimal::abs` on the fraction model. -/
def Dec.absD (a : Dec) : Dec := ⟨|a.num|, a.den⟩

/-- The `BinSearchIter` trace record of `invert_with_tracing`. -/
structure BinSearchIter where
  left : ℕ
  x : ℕ
  right : ℕ
  y : Dec
deriving Repr, DecidableEq

/-- The `while left <= right` loop of `InvertibleFunction::invert_with_tracing`.
`f` is the `apply` method of the implementation; `prev` is `prev_coords`;
`cx`, `cy` are the loop-carried variables `x` and `y`; the fuel stands in
for the unbounded loop (66 units are shown below to always suffice).
When the loop guard fails, the epilogue returns the better of the last two
probes, popping the final trace entry when the previous probe wins;
`prev = none` at loop exit models the source's `unreachable!`, and a
repeated midpoint models the source's `assert!(x != x0)`. -/
def invertLoop (f : ℕ → Dec) (target_y : Dec) :
    ℕ → Option (ℕ × Dec) → ℕ → Dec → ℕ → ℕ → List BinSearchIter →
    List BinSearchIter × PanicOr (Except String ℕ)
  | 0, _, _, _, _, _, trace => (trace, .panicked "out of fuel")
  | fuel + 1, prev, cx, cy, l, r, trace =>
    if l ≤ r then
      let x := (l + r) / 2
      let y := f x
      let trace := trace ++ [⟨l, x, r, y⟩]
      let assertViolated :=
        match prev with
        | some (x0, _) => x == x0
        | none => false
      if assertViolated then
        (trace, .panicked "Invariant violated in InvertibleFunction.invert")
      else
      let mono :=
        match prev with
        | some (x0, y0) => (x0 < x && Dec.blt y y0) || (x < x0 && Dec.blt y0 y)
        | none => false
      if mono then
        (trace, .value (.error "Cannot invert value of a function that is not monotonically increasing."))
      else if Dec.beq y target_y then (trace, .value (.ok x))
      else if Dec.blt y target_y then
        invertLoop f target_y fuel (some (x, y)) x y (x + 1) r trace
      else if x = 0 then
        (trace, .value (.error "Cannot invert small value."))
      else
        invertLoop f target_y fuel (some (x, y)) x y l (x - 1) trace
    else
      match prev with
      | some (x0, y0) =>
        if Dec.blt (Dec.absD (Dec.subD target_y cy)) (Dec.absD (Dec.subD target_y y0)) then
          (trace, .value (.ok cx))
        else
          (trace.dropLast, .value (.ok x0))
      | none => (trace, .panicked "Found a bug in InvertibleFunction.invert")

/-- `InvertibleFunction::invert_with_tracing` for an implementation whose
`apply` method is `f`. -/
def invert_with_tracing (f : ℕ → Dec) (target_y : Dec) :
    List BinSearchIter × PanicOr (Except String ℕ) :=
  if Dec.isNeg target_y then ([], .value (.error "Cannot invert negative value."))
  else
    let x0 := (0 + U64MAX) / 2
    invertLoop f target_y 66 none x0 (f x0) 0 U64MAX []

/-- `InvertibleFunction::invert`. -/
def invert (f : ℕ → Dec) (target_y : Dec) : PanicOr (Except String ℕ) :=
  (invert_with_tracing f target_y).2

/-- `NeuronsFundNeuron` (from the neuron store): id, maturity, controller.
Neuron ids and principal ids are modelled as naturals. -/
structure NeuronsFundNeuron where
  id : ℕ
  maturity_equivalent_icp_e8s : ℕ
  controller : ℕ
deriving Repr, DecidableEq

/-- `NeuronsFundNeuronPortion`. -/
structure NeuronsFundNeuronPortion where
  id : ℕ
  amount_icp_e8s : ℕ
  maturity_equivalent_icp_e8s : ℕ
  controller : ℕ
  is_capped : Bool
deriving Repr, DecidableEq

/-- `BTreeMap` insertion keyed by neuron id: place the portion at its
sorted position, replacing any existing entry with the same id. -/
def snapInsert : List NeuronsFundNeuronPortion → NeuronsFundNeuronPortion →
    List NeuronsFundNeuronPortion
  | [], p => [p]
  | q :: qs, p =>
    if p.id < q.id then p :: q :: qs
    else if p.id = q.id then p :: qs
    else q :: snapInsert qs p

/-- `NeuronsFundSnapshot::new`: collect portions into the id-keyed map
(later occurrences of an id overwrite earlier ones, as in `BTreeMap`).
A snapshot is its sorted association list of portions. -/
def NeuronsFundSnapshot.new (ps : List NeuronsFundNeuronPortion) :
    List NeuronsFundNeuronPortion :=
  ps.foldl snapInsert []

/-- `NeuronsFundSnapshot::total_amount_icp_e8s`: saturating sum of the
portion amounts. -/
def total_amount_icp_e8s (s : List NeuronsFundNeuronPortion) : ℕ :=
  s.foldl (fun a n => satAdd a n.amount_icp_e8s) 0

/-- Exact (non-saturating) sum of the portion amounts; used to relate the
saturating total to ordinary arithmetic. -/
def amountSum (s : List NeuronsFundNeuronPortion) : ℕ :=
  (s.map (·.amount_icp_e8s)).sum

/-- Lookup-and-remove by neuron id in the `deductible_neurons` map of
`NeuronsFundSnapshot::diff`. -/
def removeById : List NeuronsFundNeuronPortion → ℕ →
    Option NeuronsFundNeuronPortion × List NeuronsFundNeuronPortion
  | [], _ => (none, [])
  | p :: ps, i =>
    if p.id = i then (some p, ps)
    else
      let r := removeById ps i
      (r.1, p :: r.2)

/-- The per-neuron traversal of `NeuronsFundSnapshot::diff`: walk the
left-hand portions in order, deducting the matching right-hand portion if
present; after the traversal the right-hand side must be exhausted. -/
def diffAux : List NeuronsFundNeuronPortion → List NeuronsFundNeuronPortion →
    Except String (List NeuronsFundNeuronPortion)
  | [], ded =>
    if ded.isEmpty then .ok []
    else .error "Cannot compute diff: right-hand side contains extra neuron portions"
  | left :: ls, ded =>
    match removeById ded left.id with
    | (some right, ded') =>
      if left.amount_icp_e8s < right.amount_icp_e8s then
        .error "Cannot compute diff of two portions: right amount exceeds left amount."
      else if right.maturity_equivalent_icp_e8s ≠ left.maturity_equivalent_icp_e8s then
        .error "Cannot compute diff of two portions: maturity mismatch."
      else if right.controller ≠ left.controller then
        .error "Cannot compute diff of two portions: controller mismatch."
      else if right.is_capped && !left.is_capped then
        .error "Cannot compute diff of two portions: capped on the right only."
      else do
        let rest ← diffAux ls ded'
        .ok (⟨left.id, left.amount_icp_e8s - right.amount_icp_e8s,
          left.maturity_equivalent_icp_e8s, left.controller, right.is_capped⟩ :: rest)
    | (none, _) => do
      let rest ← diffAux ls ded
      .ok (⟨left.id, left.amount_icp_e8s, left.maturity_equivalent_icp_e8s,
        left.controller, left.is_capped⟩ :: rest)

/-- `NeuronsFundSnapshot::diff` (`self - other`, used for refunds). -/
def NeuronsFundSnapshot.diff (self other : List NeuronsFundNeuronPortion) :
    Except String (List NeuronsFundNeuronPortion) :=
  diffAux self other

/-- Wire-level `NeuronsFundNeuronPortion` (all fields optional). -/
structure NeuronsFundNeuronPortionPb where
  nns_neuron_id : Option ℕ
  amount_icp_e8s : Option ℕ
  maturity_equivalent_icp_e8s : Option ℕ
  hotkey_principal : Option ℕ
  is_capped : Option Bool
deriving Repr, DecidableEq

/-- `NeuronsFundNeuronPortionPb::validate`. -/
def NeuronsFundNeuronPortionPb.validate (p : NeuronsFundNeuronPortionPb) :
    Except String NeuronsFundNeuronPortion :=
  match p.nns_neuron_id with
  | none => .error "UnspecifiedField nns_neuron_id"
  | some id =>
    match p.amount_icp_e8s with
    | none => .error "UnspecifiedField amount_icp_e8s"
    | some amount =>
      match p.maturity_equivalent_icp_e8s with
      | none => .error "UnspecifiedField maturity_equivalent_icp_e8s"
      | some maturity =>
        if maturity < amount then .error "AmountTooBig"
        else
          match p.hotkey_principal with
          | none => .error "UnspecifiedField hotkey_principal"
          | some controller =>
            match p.is_capped with
            | none => .error "UnspecifiedField is_capped"
            | some capped => .ok ⟨id, amount, maturity, controller, capped⟩

/-- The wire form of a validated portion, as produced by the
`From<NeuronsFundParticipation> for NeuronsFundParticipationPb`
conversion (every field is `Some`). -/
def NeuronsFundNeuronPortion.toPb (n : NeuronsFundNeuronPortion) :
    NeuronsFundNeuronPortionPb :=
  ⟨some n.id, some n.amount_icp_e8s, some n.maturity_equivalent_icp_e8s,
    some n.controller, some n.is_capped⟩

/-- The derived `Ord` key of `NeuronsFundNeuronPortion` in the source:
lexicographically the controller, then the maturity (id, amount and the
capping flag do not participate in the ordering). -/
def portionKeyLt (a b : NeuronsFundNeuronPortion) : Bool :=
  a.controller < b.controller
    || (a.controller == b.controller
        && a.maturity_equivalent_icp_e8s < b.maturity_equivalent_icp_e8s)

/-- Equality of the `Ord` keys of two portions. -/
def portionKeyEq (a b : NeuronsFundNeuronPortion) : Bool :=
  a.controller == b.controller
    && a.maturity_equivalent_icp_e8s == b.maturity_equivalent_icp_e8s

/-- `BTreeSet<NeuronsFundNeuronPortion>` insertion: sorted insertion by
the `Ord` key, keeping the existing element when an equal key is already
present (as `BTreeSet::insert` does). -/
def setInsert : List NeuronsFundNeuronPortion → NeuronsFundNeuronPortion →
    List NeuronsFundNeuronPortion
  | [], p => [p]
  | q :: qs, p =>
    if portionKeyLt p q then p :: q :: qs
    else if portionKeyEq p q then q :: qs
    else q :: setInsert qs p

/-- Wire-level `NeuronsFundSnapshot`. -/
structure NeuronsFundSnapshotPb where
  neurons_fund_neuron_portions : List NeuronsFundNeuronPortionPb
deriving Repr, DecidableEq

/-- Sequential validation of the wire portions, short-circuiting at the
first failure. -/
def validatePortionList : List NeuronsFundNeuronPortionPb →
    Except String (List NeuronsFundNeuronPortion)
  | [] => .ok []
  | p :: ps =>
    match p.validate with
    | .error e => .error e
    | .ok v =>
      match validatePortionList ps with
      | .error e => .error e
      | .ok vs => .ok (v :: vs)

/-- `NeuronsFundSnapshotPb::validate`: validate every wire portion,
collect the results into a `BTreeSet` ordered by (controller, maturity) —
which silently drops portions whose key collides with an earlier one —
and rebuild the id-keyed snapshot from the set's iteration order. -/
def NeuronsFundSnapshotPb.validate (s : NeuronsFundSnapshotPb) :
    Except String (List NeuronsFundNeuronPortion) :=
  match validatePortionList s.neurons_fund_neuron_portions with
  | .error e => .error e
  | .ok ps => .ok (NeuronsFundSnapshot.new (ps.foldl setInsert []))

/-- The wire form of a snapshot
(`From<NeuronsFundSnapshot> for NeuronsFundSnapshotPb`). -/
def NeuronsFundSnapshot.toPb (s : List NeuronsFundNeuronPortion) :
    NeuronsFundSnapshotPb :=
  ⟨s.map NeuronsFundNeuronPortion.toPb⟩

/-- `SwapParticipationLimits`. -/
structure SwapParticipationLimits where
  min_direct_participation_icp_e8s : ℕ
  max_direct_participation_icp_e8s : ℕ
  min_participant_icp_e8s : ℕ
  max_participant_icp_e8s : ℕ
deriving Repr, DecidableEq

/-- Wire-level `SwapParticipationLimits` (all fields optional). -/
structure SwapParticipationLimitsPb where
  min_direct_participation_icp_e8s : Option ℕ
  max_direct_participation_icp_e8s : Option ℕ
  min_participant_icp_e8s : Option ℕ
  max_participant_icp_e8s : Option ℕ
deriving Repr, DecidableEq

/-- A trait object implementing `IdealMatchingFunction`: its `apply`
method and its `serialize` representation. -/
structure IdealMatchingFunctionImpl where
  apply : ℕ → Dec
  serialize : String

/-- The `SimpleLinearFunction` implementation: `apply` is `u64_to_dec`
and `serialize` is the opaque token. -/
def SimpleLinearFunction : IdealMatchingFunctionImpl :=
  ⟨u64_to_dec, "<SimpleLinearFunction>"⟩

/-- `SimpleLinearFunction::new`: deserialization succeeds only on the
exact token. -/
def SimpleLinearFunction.new (repr : String) : Except String IdealMatchingFunctionImpl :=
  if repr = "<SimpleLinearFunction>" then .ok SimpleLinearFunction
  else .error "Cannot deserialize as SimpleLinearFunction"

/-- `NeuronsFundParticipation`. -/
structure NeuronsFundParticipation where
  swap_participation_limits : SwapParticipationLimits
  ideal_matched_participation_function : IdealMatchingFunctionImpl
  neurons_fund_reserves : List NeuronsFundNeuronPortion
  direct_participation_icp_e8s : ℕ
  total_maturity_equivalent_icp_e8s : ℕ
  max_neurons_fund_swap_participation_icp_e8s : ℕ
  intended_neurons_fund_participation_icp_e8s : ℕ

/-- The per-neuron body of the `filter_map` in
`NeuronsFundParticipation::new_impl`.  The division by the total maturity
panics when the total is zero (`rust_decimal` division by zero); a failed
`dec_to_u64` on the ideal amount merely skips the neuron (the source logs
and returns `None`); a neuron below the participant minimum is dropped; a
neuron above the participant maximum is capped. -/
def computePortion (total_maturity_equivalent_icp_e8s : ℕ) (intendedDec : Dec)
    (swap_participation_limits : SwapParticipationLimits) (n : NeuronsFundNeuron) :
    PanicOr (Option NeuronsFundNeuronPortion) :=
  if total_maturity_equivalent_icp_e8s = 0 then .panicked "Division by zero"
  else
    let proportion := Dec.div (u64_to_dec n.maturity_equivalent_icp_e8s)
      (u64_to_dec total_maturity_equivalent_icp_e8s)
    match dec_to_u64 (Dec.mul proportion intendedDec) with
    | .error _ => .value none
    | .ok ideal =>
      if ideal < swap_participation_limits.min_participant_icp_e8s then .value none
      else if swap_participation_limits.max_participant_icp_e8s < ideal then
        .value (some ⟨n.id, swap_participation_limits.max_participant_icp_e8s,
          n.maturity_equivalent_icp_e8s, n.controller, true⟩)
      else
        .value (some ⟨n.id, ideal, n.maturity_equivalent_icp_e8s, n.controller, false⟩)

/-- Sequential evaluation of `computePortion` over the fund, keeping the
produced portions; the first panic aborts the whole construction. -/
def computePortions (total_maturity_equivalent_icp_e8s : ℕ) (intendedDec : Dec)
    (swap_participation_limits : SwapParticipationLimits) :
    List NeuronsFundNeuron → PanicOr (List NeuronsFundNeuronPortion)
  | [] => .value []
  | n :: ns =>
    match computePortion total_maturity_equivalent_icp_e8s intendedDec
        swap_participation_limits n with
    | .panicked msg => .panicked msg
    | .value none =>
      computePortions total_maturity_equivalent_icp_e8s intendedDec
        swap_participation_limits ns
    | .value (some p) =>
      match computePortions total_maturity_equivalent_icp_e8s intendedDec
          swap_participation_limits ns with
      | .panicked msg => .panicked msg
      | .value ps => .value (p :: ps)

/-- The decimal-domain maximum swap participation computed by `new_impl`:
10% of the total maturity, capped by the theoretical hard cap (both in
`u64`), then capped by the ideal function at the maximum direct
participation in the decimal domain. -/
def newImplMaxDec (total_maturity_equivalent_icp_e8s : ℕ)
    (swap_participation_limits : SwapParticipationLimits)
    (ideal_matched_participation_function : IdealMatchingFunctionImpl) : Dec :=
  Dec.minD
    (u64_to_dec (min
      (take_max_initial_neurons_fund_participation_percentage total_maturity_equivalent_icp_e8s)
      MAX_THEORETICAL_NEURONS_FUND_PARTICIPATION_AMOUNT_ICP_E8S))
    (ideal_matched_participation_function.apply
      swap_participation_limits.max_direct_participation_icp_e8s)

/-- The decimal-domain intended participation computed by `new_impl`:
the ideal function at the direct participation amount, capped by
`newImplMaxDec`. -/
def newImplIntendedDec (total_maturity_equivalent_icp_e8s direct_participation_icp_e8s : ℕ)
    (swap_participation_limits : SwapParticipationLimits)
    (ideal_matched_participation_function : IdealMatchingFunctionImpl) : Dec :=
  Dec.minD
    (ideal_matched_participation_function.apply direct_participation_icp_e8s)
    (newImplMaxDec total_maturity_equivalent_icp_e8s swap_participation_limits
      ideal_matched_participation_function)

/-- `NeuronsFundParticipation::new_impl`. -/
def NeuronsFundParticipation.new_impl (total_maturity_equivalent_icp_e8s : ℕ)
    (direct_participation_icp_e8s : ℕ)
    (swap_participation_limits : SwapParticipationLimits)
    (neurons_fund : List NeuronsFundNeuron)
    (ideal_matched_participation_function : IdealMatchingFunctionImpl) :
    PanicOr (Except String NeuronsFundParticipation) :=
  let maxDec := newImplMaxDec total_maturity_equivalent_icp_e8s
    swap_participation_limits ideal_matched_participation_function
  let intendedDec := newImplIntendedDec total_maturity_equivalent_icp_e8s
    direct_participation_icp_e8s swap_participation_limits
    ideal_matched_participation_function
  match computePortions total_maturity_equivalent_icp_e8s intendedDec
      swap_participation_limits neurons_fund with
  | .panicked msg => .panicked msg
  | .value ports =>
    let neurons_fund_reserves := NeuronsFundSnapshot.new ports
    .value (
      match dec_to_u64 intendedDec with
      | .error e => .error e
      | .ok intendedU =>
        match dec_to_u64 maxDec with
        | .error e => .error e
        | .ok maxU =>
          .ok ⟨swap_participation_limits, ideal_matched_participation_function,
            neurons_fund_reserves, direct_participation_icp_e8s,
            total_maturity_equivalent_icp_e8s, maxU, intendedU⟩)

/-- `NeuronsFundParticipation::new`: the total maturity is the saturating
sum of the fund's maturities, and the participation is built at the
maximum direct participation amount. -/
def NeuronsFundParticipation.new (swap_participation_limits : SwapParticipationLimits)
    (neurons_fund : List NeuronsFundNeuron)
    (ideal_matched_participation_function : IdealMatchingFunctionImpl) :
    PanicOr (Except String NeuronsFundParticipation) :=
  let total := (neurons_fund.map (·.maturity_equivalent_icp_e8s)).foldl satAdd 0
  NeuronsFundParticipation.new_impl total
    swap_participation_limits.max_direct_participation_icp_e8s
    swap_participation_limits neurons_fund ideal_matched_participation_function

/-- `NeuronsFundParticipation::from_initial_participation`: rebuild the
participation for a realized direct participation amount, over the roster
reconstructed from the current snapshot, with the matching function
round-tripped through its serialized representation (only
`SimpleLinearFunction` deserializes). -/
def NeuronsFundParticipation.from_initial_participation
    (p : NeuronsFundParticipation) (direct_participation_icp_e8s : ℕ) :
    PanicOr (Except String NeuronsFundParticipation) :=
  let neurons_fund : List NeuronsFundNeuron := p.neurons_fund_reserves.map
    (fun portion => ⟨portion.id, portion.maturity_equivalent_icp_e8s, portion.controller⟩)
  match SimpleLinearFunction.new p.ideal_matched_participation_function.serialize with
  | .error e => .value (.error e)
  | .ok f =>
    NeuronsFundParticipation.new_impl p.total_maturity_equivalent_icp_e8s
      direct_participation_icp_e8s p.swap_participation_limits neurons_fund f

/-- Wire-level `IdealMatchedParticipationFunction`. -/
structure IdealMatchedParticipationFunctionPb where
  serialized_representation : Option String
deriving Repr, DecidableEq

/-- Wire-level `NeuronsFundParticipation`. -/
structure NeuronsFundParticipationPb where
  ideal_matched_participation_function : Option IdealMatchedParticipationFunctionPb
  neurons_fund_reserves : Option NeuronsFundSnapshotPb
  swap_participation_limits : Option SwapParticipationLimitsPb
  direct_participation_icp_e8s : Option ℕ
  total_maturity_equivalent_icp_e8s : Option ℕ
  max_neurons_fund_swap_participation_icp_e8s : Option ℕ
  intended_neurons_fund_participation_icp_e8s : Option ℕ
deriving Repr, DecidableEq

/-- `impl From<NeuronsFundParticipation> for NeuronsFundParticipationPb`. -/
def NeuronsFundParticipation.toPb (p : NeuronsFundParticipation) :
    NeuronsFundParticipationPb :=
  ⟨some ⟨some p.ideal_matched_participation_function.serialize⟩,
    some (NeuronsFundSnapshot.toPb p.neurons_fund_reserves),
    some ⟨some p.swap_participation_limits.min_direct_participation_icp_e8s,
      some p.swap_participation_limits.max_direct_participation_icp_e8s,
      some p.swap_participation_limits.min_participant_icp_e8s,
      some p.swap_participation_limits.max_participant_icp_e8s⟩,
    some p.direct_participation_icp_e8s,
    some p.total_maturity_equivalent_icp_e8s,
    some p.max_neurons_fund_swap_participation_icp_e8s,
    some p.intended_neurons_fund_participation_icp_e8s⟩

/-- `NeuronsFundParticipationPb::validate`: field-presence checks in the
order of the source, the matching function rebuilt through
`SimpleLinearFunction::new`, and the snapshot revalidated. -/
def NeuronsFundParticipationPb.validate (p : NeuronsFundParticipationPb) :
    Except String NeuronsFundParticipation :=
  match p.ideal_matched_participation_function with
  | none => .error "UnspecifiedField ideal_matched_participation_function"
  | some fnPb =>
    match fnPb.serialized_representation with
    | none => .error "UnspecifiedField serialized_representation"
    | some repr =>
      match SimpleLinearFunction.new repr with
      | .error e => .error e
      | .ok f =>
        match p.neurons_fund_reserves with
        | none => .error "UnspecifiedField neurons_fund_reserves"
        | some reservesPb =>
          match reservesPb.validate with
          | .error e => .error e
          | .ok reserves =>
            match p.swap_participation_limits with
            | none => .error "UnspecifiedField swap_participation_limits"
            | some limitsPb =>
              match limitsPb.min_direct_participation_icp_e8s with
              | none => .error "UnspecifiedField min_direct_participation_icp_e8s"
              | some minD =>
                match limitsPb.max_direct_participation_icp_e8s with
                | none => .error "UnspecifiedField max_direct_participation_icp_e8s"
                | some maxD =>
                  match limitsPb.min_participant_icp_e8s with
                  | none => .error "UnspecifiedField min_participant_icp_e8s"
                  | some minP =>
                    match limitsPb.max_participant_icp_e8s with
                    | none => .error "UnspecifiedField max_participant_icp_e8s"
                    | some maxP =>
                      match p.direct_participation_icp_e8s with
                      | none => .error "UnspecifiedField direct_participation_icp_e8s"
                      | some direct =>
                        match p.total_maturity_equivalent_icp_e8s with
                        | none => .error "UnspecifiedField total_maturity_equivalent_icp_e8s"
                        | some total =>
                          match p.max_neurons_fund_swap_participation_icp_e8s with
                          | none => .error "UnspecifiedField max_neurons_fund_swap_participation_icp_e8s"
                          | some maxSwap =>
                            match p.intended_neurons_fund_participation_icp_e8s with
                            | none => .error "UnspecifiedField intended_neurons_fund_participation_icp_e8s"
                            | some intended =>
                              .ok ⟨⟨minD, maxD, minP, maxP⟩, f, reserves, direct,
                                total, maxSwap, intended⟩

/-- The invariants established by
`TryFrom<NeuronsFundParticipationConstraints>` on a validated constraints
bundle: between 1 and `MAX_LINEAR_SCALING_COEFFICIENT_VEC_LEN` intervals,
each interval non-empty with a positive denominator and slope at most 1,
adjacent intervals chaining exactly, and the first interval starting at
0. -/
def ValidatedNeuronsFundParticipationConstraints.Valid
    (c : ValidatedNeuronsFundParticipationConstraints) : Prop :=
  1 ≤ c.coefficient_intervals.length ∧
  c.coefficient_intervals.length ≤ MAX_LINEAR_SCALING_COEFFICIENT_VEC_LEN ∧
  (∀ i ∈ c.coefficient_intervals,
    i.from_direct_participation_icp_e8s < i.to_direct_participation_icp_e8s ∧
    0 < i.slope_denominator ∧ i.slope_numerator ≤ i.slope_denominator) ∧
  coefficientsChain c.coefficient_intervals = true ∧
  (∀ first ∈ c.coefficient_intervals.head?, first.from_direct_participation_icp_e8s = 0)

instance (c : ValidatedNeuronsFundParticipationConstraints) : Decidable c.Valid := by
  unfold ValidatedNeuronsFundParticipationConstraints.Valid; infer_instance

/-- A uniform fund of `n` neurons with maximal maturity, controller `0`
and consecutive ids starting at `k`; large instances exercise the
saturating totals of `NeuronsFundParticipation::new`. -/
def upNeurons (k : ℕ) : ℕ → List NeuronsFundNeuron
  | 0 => []
  | n + 1 => ⟨k, U64MAX, 0⟩ :: upNeurons (k + 1) n

/-- The uniform list of `n` portions with amount `a`, maximal maturity,
controller `0`, capping flag `c` and consecutive ids starting at `k`. -/
def upPortions (a : ℕ) (c : Bool) (k : ℕ) : ℕ → List NeuronsFundNeuronPortion
  | 0 => []
  | n + 1 => ⟨k, a, U64MAX, 0, c⟩ :: upPortions a c (k + 1) n

/-! General lemmas about the `Dec` model. -/

theorem Dec.toRat_u64 (x : ℕ) : (u64_to_dec x).toRat = (x : ℚ) := by
  simp [u64_to_dec, Dec.toRat]

theorem Dec.WF_u64 (x : ℕ) : (u64_to_dec x).WF := by
  simp [u64_to_dec, Dec.WF]

theorem Dec.den_posQ {a : Dec} (ha : a.WF) : (0 : ℚ) < (a.den : ℚ) := by
  exact_mod_cast ha

theorem Dec.ble_iff {a b : Dec} (ha : a.WF) (hb : b.WF) :
    Dec.ble a b = true ↔ a.toRat ≤ b.toRat := by
  rw [Dec.ble, decide_eq_true_eq, Dec.toRat, Dec.toRat,
    div_le_div_iff₀ (Dec.den_posQ ha) (Dec.den_posQ hb)]
  exact_mod_cast Iff.rfl

theorem Dec.blt_iff {a b : Dec} (ha : a.WF) (hb : b.WF) :
    Dec.blt a b = true ↔ a.toRat < b.toRat := by
  rw [Dec.blt, decide_eq_true_eq, Dec.toRat, Dec.toRat,
    div_lt_div_iff₀ (Dec.den_posQ ha) (Dec.den_posQ hb)]
  exact_mod_cast Iff.rfl

theorem Dec.beq_iff {a b : Dec} (ha : a.WF) (hb : b.WF) :
    Dec.beq a b = true ↔ a.toRat = b.toRat := by
  rw [Dec.beq, beq_iff_eq, Dec.toRat, Dec.toRat,
    div_eq_div_iff (ne_of_gt (Dec.den_posQ ha)) (ne_of_gt (Dec.den_posQ hb))]
  exact_mod_cast Iff.rfl

theorem Dec.isNeg_iff {a : Dec} (ha : a.WF) : a.isNeg = true ↔ a.toRat < 0 := by
  rw [Dec.isNeg, decide_eq_true_eq, Dec.toRat, div_neg_iff]
  constructor
  · intro h
    exact Or.inr ⟨by exact_mod_cast h, Dec.den_posQ ha⟩
  · rintro (⟨_, h⟩ | ⟨h, _⟩)
    · exact absurd (Dec.den_posQ ha) (not_lt.mpr (le_of_lt h))
    · exact_mod_cast h

theorem Dec.WF_mul {a b : Dec} (ha : a.WF) (hb : b.WF) : (Dec.mul a b).WF :=
  Nat.mul_pos ha hb

theorem Dec.WF_add {a b : Dec} (ha : a.WF) (hb : b.WF) : (Dec.add a b).WF :=
  Nat.mul_pos ha hb

theorem Dec.WF_minD {a b : Dec} (ha : a.WF) (hb : b.WF) : (Dec.minD a b).WF := by
  unfold Dec.minD; split <;> assumption

theorem Dec.toRat_mul {a b : Dec} : (Dec.mul a b).toRat = a.toRat * b.toRat := by
  simp only [Dec.mul, Dec.toRat]
  push_cast
  rw [div_mul_div_comm]

theorem Dec.toRat_add {a b : Dec} (ha : a.WF) (hb : b.WF) :
    (Dec.add a b).toRat = a.toRat + b.toRat := by
  have h1 : ((a.den : ℚ)) ≠ 0 := ne_of_gt (Dec.den_posQ ha)
  have h2 : ((b.den : ℚ)) ≠ 0 := ne_of_gt (Dec.den_posQ hb)
  simp only [Dec.add, Dec.toRat]
  push_cast
  field_simp

theorem Dec.WF_div {a b : Dec} (ha : a.WF) (hbn : b.num ≠ 0) : (Dec.div a b).WF :=
  Nat.mul_pos ha (Int.natAbs_pos.mpr hbn)

theorem Dec.toRat_div {a b : Dec} (ha : a.WF) (hb : b.WF) (hbn : b.num ≠ 0) :
    (Dec.div a b).toRat = a.toRat / b.toRat := by
  have h1 : ((a.den : ℚ)) ≠ 0 := ne_of_gt (Dec.den_posQ ha)
  have h2 : ((b.den : ℚ)) ≠ 0 := ne_of_gt (Dec.den_posQ hb)
  have h3 : ((b.num : ℚ)) ≠ 0 := by exact_mod_cast hbn
  simp only [Dec.div, Dec.toRat]
  rcases hbn.lt_or_lt with h | h
  · have hs : b.num.sign = -1 := Int.sign_eq_neg_one_iff_neg.mpr h
    have habs : ((b.num.natAbs : ℤ)) = -b.num := Int.ofNat_natAbs_of_nonpos (le_of_lt h)
    have habsQ : ((b.num.natAbs : ℕ) : ℚ) = -(b.num : ℚ) := by
      rw [Int.cast_natAbs, abs_of_neg h]
      push_cast
      ring
    rw [hs]
    push_cast [habsQ]
    field_simp
  · have hs : b.num.sign = 1 := Int.sign_eq_one_iff_pos.mpr h
    have habs : ((b.num.natAbs : ℤ)) = b.num := Int.natAbs_of_nonneg (le_of_lt h)
    have habsQ : ((b.num.natAbs : ℕ) : ℚ) = (b.num : ℚ) := by
      rw [Int.cast_natAbs, abs_of_pos h]
    rw [hs]
    push_cast [habsQ]
    field_simp

theorem Dec.toRat_minD {a b : Dec} (ha : a.WF) (hb : b.WF) :
    (Dec.minD a b).toRat = min a.toRat b.toRat := by
  unfold Dec.minD
  split
  · next h => rw [min_eq_left ((Dec.ble_iff ha hb).mp h)]
  · next h =>
    have hx : ¬ a.toRat ≤ b.toRat := fun hc => h ((Dec.ble_iff ha hb).mpr hc)
    rw [min_eq_right (le_of_not_le hx)]

theorem Dec.ediv_eq_floor {a : Dec} (ha : a.WF) : a.num.ediv (a.den : ℤ) = ⌊a.toRat⌋ := by
  rw [Dec.toRat, Rat.floor_intCast_div_natCast]
  rfl

theorem Dec.roundTE_le_floor_add_one {a : Dec} (ha : a.WF) : a.roundTE ≤ ⌊a.toRat⌋ + 1 := by
  rw [Dec.roundTE]
  simp only [← Dec.ediv_eq_floor ha]
  split
  · exact le_of_lt (lt_add_one _)
  · split
    · exact le_refl _
    · split
      · exact le_of_lt (lt_add_one _)
      · exact le_refl _

theorem Dec.floor_le_roundTE {a : Dec} (ha : a.WF) : ⌊a.toRat⌋ ≤ a.roundTE := by
  rw [Dec.roundTE]
  simp only [← Dec.ediv_eq_floor ha]
  split
  · exact le_refl _
  · split
    · exact le_of_lt (lt_add_one _)
    · split
      · exact le_refl _
      · exact le_of_lt (lt_add_one _)

theorem Dec.roundTE_congr {a b : Dec} (ha : a.WF) (hb : b.WF)
    (h : a.toRat = b.toRat) : a.roundTE = b.roundTE := by
  have hfa := Dec.ediv_eq_floor ha
  have hfb := Dec.ediv_eq_floor hb
  have hra : ((a.num.emod (a.den : ℤ) : ℤ) : ℚ) = (a.toRat - ⌊a.toRat⌋) * (a.den : ℚ) := by
    have hd : ((a.den : ℚ)) ≠ 0 := ne_of_gt (Dec.den_posQ ha)
    have hQ : ((a.den : ℚ)) * ((⌊a.toRat⌋ : ℤ) : ℚ)
        + ((a.num.emod (a.den : ℤ) : ℤ) : ℚ) = (a.num : ℚ) := by
      have hz := Int.ediv_add_emod a.num (a.den : ℤ)
      rw [show a.num / (a.den : ℤ) = a.num.ediv (a.den : ℤ) from rfl, hfa] at hz
      exact_mod_cast hz
    have hnum : a.toRat * (a.den : ℚ) = (a.num : ℚ) := div_mul_cancel₀ _ hd
    linear_combination hQ - hnum
  have hrb : ((b.num.emod (b.den : ℤ) : ℤ) : ℚ) = (b.toRat - ⌊b.toRat⌋) * (b.den : ℚ) := by
    have hd : ((b.den : ℚ)) ≠ 0 := ne_of_gt (Dec.den_posQ hb)
    have hQ : ((b.den : ℚ)) * ((⌊b.toRat⌋ : ℤ) : ℚ)
        + ((b.num.emod (b.den : ℤ) : ℤ) : ℚ) = (b.num : ℚ) := by
      have hz := Int.ediv_add_emod b.num (b.den : ℤ)
      rw [show b.num / (b.den : ℤ) = b.num.ediv (b.den : ℤ) from rfl, hfb] at hz
      exact_mod_cast hz
    have hnum : b.toRat * (b.den : ℚ) = (b.num : ℚ) := div_mul_cancel₀ _ hd
    linear_combination hQ - hnum
  have hfr : (2 * a.num.emod (a.den : ℤ) < (a.den : ℤ)) ↔
      (2 * b.num.emod (b.den : ℤ) < (b.den : ℤ)) := by
    constructor <;> intro hc
    · have hcQ : 2 * ((a.num.emod (a.den : ℤ) : ℤ) : ℚ) < (a.den : ℚ) := by exact_mod_cast hc
      rw [hra] at hcQ
      have hda := Dec.den_posQ ha
      have hfrac : a.toRat - ⌊a.toRat⌋ < 1 / 2 := by nlinarith
      have hgQ : 2 * ((b.num.emod (b.den : ℤ) : ℤ) : ℚ) < (b.den : ℚ) := by
        rw [hrb, ← h]
        have hdb := Dec.den_posQ hb
        nlinarith
      exact_mod_cast hgQ
    · have hcQ : 2 * ((b.num.emod (b.den : ℤ) : ℤ) : ℚ) < (b.den : ℚ) := by exact_mod_cast hc
      rw [hrb] at hcQ
      have hdb := Dec.den_posQ hb
      have hfrac : b.toRat - ⌊b.toRat⌋ < 1 / 2 := by nlinarith
      have hgQ : 2 * ((a.num.emod (a.den : ℤ) : ℤ) : ℚ) < (a.den : ℚ) := by
        rw [hra, h]
        have hda := Dec.den_posQ ha
        nlinarith
      exact_mod_cast hgQ
  have hgr : ((a.den : ℤ) < 2 * a.num.emod (a.den : ℤ)) ↔
      ((b.den : ℤ) < 2 * b.num.emod (b.den : ℤ)) := by
    constructor <;> intro hc
    · have hcQ : (a.den : ℚ) < 2 * ((a.num.emod (a.den : ℤ) : ℤ) : ℚ) := by exact_mod_cast hc
      rw [hra] at hcQ
      have hda := Dec.den_posQ ha
      have hfrac : 1 / 2 < a.toRat - ⌊a.toRat⌋ := by nlinarith
      have hgQ : (b.den : ℚ) < 2 * ((b.num.emod (b.den : ℤ) : ℤ) : ℚ) := by
        rw [hrb, ← h]
        have hdb := Dec.den_posQ hb
        nlinarith
      exact_mod_cast hgQ
    · have hcQ : (b.den : ℚ) < 2 * ((b.num.emod (b.den : ℤ) : ℤ) : ℚ) := by exact_mod_cast hc
      rw [hrb] at hcQ
      have hdb := Dec.den_posQ hb
      have hfrac : 1 / 2 < b.toRat - ⌊b.toRat⌋ := by nlinarith
      have hgQ : (a.den : ℚ) < 2 * ((a.num.emod (a.den : ℤ) : ℤ) : ℚ) := by
        rw [hra, h]
        have hda := Dec.den_posQ ha
        nlinarith
      exact_mod_cast hgQ
  rw [Dec.roundTE, Dec.roundTE]
  simp only [hfa, hfb, h]
  rcases lt_trichotomy (2 * a.num.emod (a.den : ℤ)) ((a.den : ℤ)) with hc | hc | hc
  · rw [if_pos hc, if_pos (hfr.mp hc)]
  · have hnlt : ¬ (2 * a.num.emod (a.den : ℤ) < (a.den : ℤ)) := by omega
    have hnlt2 : ¬ ((a.den : ℤ) < 2 * a.num.emod (a.den : ℤ)) := by omega
    have hb1 : ¬ (2 * b.num.emod (b.den : ℤ) < (b.den : ℤ)) := fun hcb => hnlt (hfr.mpr hcb)
    have hb2 : ¬ ((b.den : ℤ) < 2 * b.num.emod (b.den : ℤ)) := fun hcb => hnlt2 (hgr.mpr hcb)
    rw [if_neg hnlt, if_neg hnlt2, if_neg hb1, if_neg hb2]
  · have hnlt : ¬ (2 * a.num.emod (a.den : ℤ) < (a.den : ℤ)) := by omega
    rw [if_neg hnlt, if_pos hc, if_neg (fun hcb => hnlt (hfr.mpr hcb)), if_pos (hgr.mp hc)]

theorem dec_to_u64_congr {a b : Dec} (ha : a.WF) (hb : b.WF)
    (h : a.toRat = b.toRat) : dec_to_u64 a = dec_to_u64 b := by
  rw [dec_to_u64, dec_to_u64]
  have hneg : a.isNeg = b.isNeg := by
    by_cases hc : a.isNeg = true
    · rw [hc]
      exact ((Dec.isNeg_iff hb).mpr (h ▸ (Dec.isNeg_iff ha).mp hc)).symm
    · have hcb : ¬ b.isNeg = true := fun hcb =>
        hc ((Dec.isNeg_iff ha).mpr (h.symm ▸ (Dec.isNeg_iff hb).mp hcb))
      rw [Bool.not_eq_true] at hc hcb
      rw [hc, hcb]
  rw [hneg, Dec.roundTE_congr ha hb h]

/-! C10: diff of a snapshot with itself. -/

theorem diffAux_self (s : List NeuronsFundNeuronPortion) :
    diffAux s s = .ok (s.map fun p =>
      ⟨p.id, 0, p.maturity_equivalent_icp_e8s, p.controller, p.is_capped⟩) := by
  induction s with
  | nil => rfl
  | cons p ps ih =>
    have hrem : removeById (p :: ps) p.id = (some p, ps) := by simp [removeById]
    rw [diffAux, hrem]
    simp [ih, Nat.sub_self]
    rfl

/-- C10: for every snapshot `s`, `s.diff(&s)` succeeds and returns the
snapshot with the same neuron ids in which every portion carries amount
`0` and keeps the original maturity, controller and capping flag; hence
the refund of a non-empty snapshot is non-empty. -/
theorem diff_self_is_zero_refund (s : List NeuronsFundNeuronPortion) :
    NeuronsFundSnapshot.diff s s = .ok (s.map fun p =>
      ⟨p.id, 0, p.maturity_equivalent_icp_e8s, p.controller, p.is_capped⟩) ∧
    (s.map fun p => (⟨p.id, 0, p.maturity_equivalent_icp_e8s, p.controller,
        p.is_capped⟩ : NeuronsFundNeuronPortion)).map (·.id) = s.map (·.id) ∧
    (∀ q ∈ s.map fun p => (⟨p.id, 0, p.maturity_equivalent_icp_e8s, p.controller,
        p.is_capped⟩ : NeuronsFundNeuronPortion), q.amount_icp_e8s = 0) ∧
    (s ≠ [] → s.map (fun p => (⟨p.id, 0, p.maturity_equivalent_icp_e8s, p.controller,
        p.is_capped⟩ : NeuronsFundNeuronPortion)) ≠ []) := by
  refine ⟨diffAux_self s, ?_, ?_, ?_⟩
  · rw [List.map_map]
    exact List.map_congr_left (fun p _ => rfl)
  · intro q hq
    rw [List.mem_map] at hq
    obtain ⟨p, _, hp⟩ := hq
    rw [← hp]
  · intro hne
    simpa using hne

/-! C8: the midpoint expression of `find_interval`. -/

/-- C8: the source computes the midpoint of the index bounds as
`(((i as u32) + (j as u32)) / 2) as usize`, i.e. in `u32`, a type 32 bits
NARROWER than the 64-bit index domain, not wider; at `i = j = 2^32`
(indices valid for a partition of more than `2^32` intervals) the
computed midpoint is `0` instead of the exact midpoint `2^32`, so the
claim's overflow-freedom property fails on the code. -/
theorem find_interval_mid_truncates :
    find_interval_mid (2 ^ 32) (2 ^ 32) = 0 ∧
    (2 ^ 32 + 2 ^ 32) / 2 = 2 ^ 32 ∧
    find_interval_mid (2 ^ 32) (2 ^ 32) ≠ (2 ^ 32 + 2 ^ 32) / 2 := by
  refine ⟨by decide, by decide, by decide⟩

/-! C9: `new` panics on a non-empty fund whose total maturity is zero. -/

/-- C9 counterexample: on the one-neuron fund whose only neuron has zero
maturity, `NeuronsFundParticipation::new` reaches the per-neuron division
with a zero total-maturity divisor and panics (`rust_decimal` division by
zero), so `new` is not total. -/
theorem new_panics_on_zero_maturity_fund :
    (NeuronsFundParticipation.new ⟨7500000000000, 30000000000000, 1000000000, 5000000000000⟩
      [⟨1, 0, 1⟩] SimpleLinearFunction).isPanic = true := by
  rfl

theorem computePortion_total_ne_zero_no_panic
    (total : ℕ) (intendedDec : Dec) (limits : SwapParticipationLimits)
    (n : NeuronsFundNeuron) (h : total ≠ 0) :
    ∃ o, computePortion total intendedDec limits n = .value o := by
  rw [computePortion, if_neg h]
  rcases hdec : dec_to_u64 (Dec.mul (Dec.div (u64_to_dec n.maturity_equivalent_icp_e8s)
      (u64_to_dec total)) intendedDec) with e | v
  · exact ⟨none, by simp only [hdec]⟩
  · simp only [hdec]
    split
    · exact ⟨none, rfl⟩
    · split
      · exact ⟨_, rfl⟩
      · exact ⟨_, rfl⟩

theorem computePortions_total_ne_zero_no_panic
    (total : ℕ) (intendedDec : Dec) (limits : SwapParticipationLimits)
    (nf : List NeuronsFundNeuron) (h : total ≠ 0) :
    ∃ ps, computePortions total intendedDec limits nf = .value ps := by
  induction nf with
  | nil => exact ⟨[], rfl⟩
  | cons n ns ih =>
    obtain ⟨ps, hps⟩ := ih
    rw [computePortions]
    obtain ⟨o, ho⟩ := computePortion_total_ne_zero_no_panic total intendedDec limits n h
    rw [ho, hps]
    cases o
    · exact ⟨ps, rfl⟩
    · exact ⟨_, rfl⟩

theorem satFold_zero_iff (l : List ℕ) (a : ℕ) :
    l.foldl satAdd a = 0 → a = 0 ∧ ∀ x ∈ l, x = 0 := by
  induction l generalizing a with
  | nil => intro h; exact ⟨h, by simp⟩
  | cons x xs ih =>
    intro h
    rw [List.foldl_cons] at h
    obtain ⟨hsa, hall⟩ := ih (satAdd a x) h
    have hax : a + x = 0 := by
      rw [satAdd] at hsa
      rcases Nat.min_eq_zero_iff.mp hsa with h0 | h0
      · exact h0
      · exact absurd h0 (by decide)
    constructor
    · omega
    · intro y hy
      rcases List.mem_cons.mp hy with rfl | hmem
      · omega
      · exact hall y hmem

/-- C9 amended: `NeuronsFundParticipation::new` never panics on the empty
fund or on any fund in which at least one neuron has non-zero maturity
(equivalently, whenever the total maturity is non-zero); the division by
the total maturity has a zero divisor precisely on a non-empty all-zero
fund, where `new` panics. -/
theorem new_no_panic_of_total_ne_zero
    (limits : SwapParticipationLimits) (nf : List NeuronsFundNeuron)
    (f : IdealMatchingFunctionImpl)
    (h : nf = [] ∨ ∃ n ∈ nf, n.maturity_equivalent_icp_e8s ≠ 0) :
    (NeuronsFundParticipation.new limits nf f).isPanic = false := by
  rw [NeuronsFundParticipation.new, NeuronsFundParticipation.new_impl]
  rcases h with rfl | ⟨n, hn, hmat⟩
  · rfl
  · have htot : (nf.map (·.maturity_equivalent_icp_e8s)).foldl satAdd 0 ≠ 0 := by
      intro hc
      exact hmat ((satFold_zero_iff _ _ hc).2 _ (List.mem_map_of_mem _ hn))
    obtain ⟨ps, hps⟩ := computePortions_total_ne_zero_no_panic _ _ limits nf htot
    rw [hps]
    rfl

/-- Witness for the amended C9 theorem at a concrete input. -/
theorem new_no_panic_of_total_ne_zero_witness :
    (NeuronsFundParticipation.new ⟨7500000000000, 30000000000000, 1000000000, 5000000000000⟩
      [⟨1, 50000000000, 1⟩] SimpleLinearFunction).isPanic = false :=
  new_no_panic_of_total_ne_zero _ _ _ (Or.inr ⟨⟨1, 50000000000, 1⟩, by decide, by decide⟩)

/-! C4: construction formulas of `new_impl`. -/

theorem new_impl_ok_elim
    {total d : ℕ} {limits : SwapParticipationLimits} {nf : List NeuronsFundNeuron}
    {f : IdealMatchingFunctionImpl} {p : NeuronsFundParticipation}
    (h : NeuronsFundParticipation.new_impl total d limits nf f = .value (.ok p)) :
    ∃ ports iv mv,
      computePortions total (newImplIntendedDec total d limits f) limits nf = .value ports ∧
      dec_to_u64 (newImplIntendedDec total d limits f) = .ok iv ∧
      dec_to_u64 (newImplMaxDec total limits f) = .ok mv ∧
      p = ⟨limits, f, NeuronsFundSnapshot.new ports, d, total, mv, iv⟩ := by
  rw [NeuronsFundParticipation.new_impl] at h
  rcases hcp : computePortions total (newImplIntendedDec total d limits f) limits nf
    with msg | ports
  · rw [hcp] at h
    exact absurd h (by simp)
  · rw [hcp] at h
    rcases hint : dec_to_u64 (newImplIntendedDec total d limits f) with e | iv
    · rw [hint] at h
      exact absurd h (by simp)
    · rw [hint] at h
      rcases hmax : dec_to_u64 (newImplMaxDec total limits f) with e | mv
      · rw [hmax] at h
        exact absurd h (by simp)
      · rw [hmax] at h
        simp only [PanicOr.value.injEq, Except.ok.injEq] at h
        exact ⟨ports, iv, mv, rfl, rfl, rfl, h.symm⟩

/-- C4: for every participation produced by `new_impl`,
`max_neurons_fund_swap_participation_icp_e8s` is the `u64` rounding of
`min(THEORETICAL_HARD_CAP, 10% of the total maturity taken as 1000/10000
basis points, f(max_direct_participation_icp_e8s))` computed in the
decimal domain, and `intended_neurons_fund_participation_icp_e8s` is the
`u64` rounding of `min(f(direct_participation_icp_e8s), max_swap)`. -/
theorem new_impl_construction_formulas
    (total d : ℕ) (limits : SwapParticipationLimits) (nf : List NeuronsFundNeuron)
    (f : IdealMatchingFunctionImpl) (p : NeuronsFundParticipation)
    (hWFmax : (f.apply limits.max_direct_participation_icp_e8s).WF)
    (hWFd : (f.apply d).WF)
    (h : NeuronsFundParticipation.new_impl total d limits nf f = .value (.ok p)) :
    dec_to_u64 (Dec.minD
      (u64_to_dec MAX_THEORETICAL_NEURONS_FUND_PARTICIPATION_AMOUNT_ICP_E8S)
      (Dec.minD
        (u64_to_dec (take_max_initial_neurons_fund_participation_percentage total))
        (f.apply limits.max_direct_participation_icp_e8s)))
      = .ok p.max_neurons_fund_swap_participation_icp_e8s ∧
    dec_to_u64 (Dec.minD (f.apply d) (Dec.minD
      (u64_to_dec MAX_THEORETICAL_NEURONS_FUND_PARTICIPATION_AMOUNT_ICP_E8S)
      (Dec.minD
        (u64_to_dec (take_max_initial_neurons_fund_participation_percentage total))
        (f.apply limits.max_direct_participation_icp_e8s))))
      = .ok p.intended_neurons_fund_participation_icp_e8s := by
  obtain ⟨ports, iv, mv, hcp, hint, hmax, hp⟩ := new_impl_ok_elim h
  have hWFcap : (u64_to_dec MAX_THEORETICAL_NEURONS_FUND_PARTICIPATION_AMOUNT_ICP_E8S).WF :=
    Dec.WF_u64 _
  have hWFpct : (u64_to_dec
      (take_max_initial_neurons_fund_participation_percentage total)).WF := Dec.WF_u64 _
  have hWFcode : (newImplMaxDec total limits f).WF :=
    Dec.WF_minD (Dec.WF_u64 _) hWFmax
  have hWFclaim : (Dec.minD
      (u64_to_dec MAX_THEORETICAL_NEURONS_FUND_PARTICIPATION_AMOUNT_ICP_E8S)
      (Dec.minD
        (u64_to_dec (take_max_initial_neurons_fund_participation_percentage total))
        (f.apply limits.max_direct_participation_icp_e8s))).WF :=
    Dec.WF_minD hWFcap (Dec.WF_minD hWFpct hWFmax)
  have hmaxRat : (Dec.minD
      (u64_to_dec MAX_THEORETICAL_NEURONS_FUND_PARTICIPATION_AMOUNT_ICP_E8S)
      (Dec.minD
        (u64_to_dec (take_max_initial_neurons_fund_participation_percentage total))
        (f.apply limits.max_direct_participation_icp_e8s))).toRat
      = (newImplMaxDec total limits f).toRat := by
    rw [Dec.toRat_minD hWFcap (Dec.WF_minD hWFpct hWFmax),
      Dec.toRat_minD hWFpct hWFmax,
      newImplMaxDec, Dec.toRat_minD (Dec.WF_u64 _) hWFmax,
      Dec.toRat_u64, Dec.toRat_u64, Dec.toRat_u64, Nat.cast_min]
    rw [min_comm ((MAX_THEORETICAL_NEURONS_FUND_PARTICIPATION_AMOUNT_ICP_E8S : ℚ)) _,
      min_assoc,
      min_comm ((f.apply limits.max_direct_participation_icp_e8s).toRat)
        ((MAX_THEORETICAL_NEURONS_FUND_PARTICIPATION_AMOUNT_ICP_E8S : ℚ)),
      ← min_assoc]
  constructor
  · rw [dec_to_u64_congr hWFclaim hWFcode hmaxRat, hmax, hp]
  · have hWFint : (newImplIntendedDec total d limits f).WF :=
      Dec.WF_minD hWFd hWFcode
    have hintRat : (Dec.minD (f.apply d) (Dec.minD
        (u64_to_dec MAX_THEORETICAL_NEURONS_FUND_PARTICIPATION_AMOUNT_ICP_E8S)
        (Dec.minD
          (u64_to_dec (take_max_initial_neurons_fund_participation_percentage total))
          (f.apply limits.max_direct_participation_icp_e8s)))).toRat
        = (newImplIntendedDec total d limits f).toRat := by
      rw [Dec.toRat_minD hWFd hWFclaim, newImplIntendedDec,
        Dec.toRat_minD hWFd hWFcode, hmaxRat]
    rw [dec_to_u64_congr (Dec.WF_minD hWFd hWFclaim) hWFint hintRat, hint, hp]

/-- Witness for the C4 theorem at a concrete input. -/
theorem new_impl_construction_formulas_witness :
    dec_to_u64 (Dec.minD
      (u64_to_dec MAX_THEORETICAL_NEURONS_FUND_PARTICIPATION_AMOUNT_ICP_E8S)
      (Dec.minD
        (u64_to_dec (take_max_initial_neurons_fund_participation_percentage 20000000000))
        (SimpleLinearFunction.apply 10000000000)))
      = .ok ((⟨⟨0, 10000000000, 1, 5000000000⟩, SimpleLinearFunction,
          [⟨1, 1000000000, 10000000000, 1, false⟩, ⟨2, 1000000000, 10000000000, 2, false⟩],
          10000000000, 20000000000, 2000000000,
          2000000000⟩ : NeuronsFundParticipation)).max_neurons_fund_swap_participation_icp_e8s ∧
    dec_to_u64 (Dec.minD (SimpleLinearFunction.apply 10000000000) (Dec.minD
      (u64_to_dec MAX_THEORETICAL_NEURONS_FUND_PARTICIPATION_AMOUNT_ICP_E8S)
      (Dec.minD
        (u64_to_dec (take_max_initial_neurons_fund_participation_percentage 20000000000))
        (SimpleLinearFunction.apply 10000000000))))
      = .ok ((⟨⟨0, 10000000000, 1, 5000000000⟩, SimpleLinearFunction,
          [⟨1, 1000000000, 10000000000, 1, false⟩, ⟨2, 1000000000, 10000000000, 2, false⟩],
          10000000000, 20000000000, 2000000000,
          2000000000⟩ : NeuronsFundParticipation)).intended_neurons_fund_participation_icp_e8s :=
  new_impl_construction_formulas 20000000000 10000000000 ⟨0, 10000000000, 1, 5000000000⟩
    [⟨1, 10000000000, 1⟩, ⟨2, 10000000000, 2⟩] SimpleLinearFunction _
    (Dec.WF_u64 _) (Dec.WF_u64 _) (by rfl)

/-! Membership characterization for snapshots built by `new_impl`. -/

theorem mem_snapInsert {q p : NeuronsFundNeuronPortion}
    {l : List NeuronsFundNeuronPortion} (h : q ∈ snapInsert l p) :
    q = p ∨ q ∈ l := by
  induction l with
  | nil =>
    rw [snapInsert] at h
    rcases List.mem_singleton.mp h with rfl
    exact Or.inl rfl
  | cons r rs ih =>
    rw [snapInsert] at h
    split at h
    · rcases List.mem_cons.mp h with rfl | hm
      · exact Or.inl rfl
      · exact Or.inr hm
    · split at h
      · rcases List.mem_cons.mp h with rfl | hm
        · exact Or.inl rfl
        · exact Or.inr (List.mem_cons_of_mem _ hm)
      · rcases List.mem_cons.mp h with rfl | hm
        · exact Or.inr (List.mem_cons_self _ _)
        · rcases ih hm with hq | hq
          · exact Or.inl hq
          · exact Or.inr (List.mem_cons_of_mem _ hq)

theorem mem_snapshot_new_aux {q : NeuronsFundNeuronPortion}
    (l acc : List NeuronsFundNeuronPortion) (h : q ∈ l.foldl snapInsert acc) :
    q ∈ acc ∨ q ∈ l := by
  induction l generalizing acc with
  | nil => exact Or.inl h
  | cons p ps ih =>
    rw [List.foldl_cons] at h
    rcases ih (snapInsert acc p) h with hm | hm
    · rcases mem_snapInsert hm with rfl | hm2
      · exact Or.inr (List.mem_cons_self _ _)
      · exact Or.inl hm2
    · exact Or.inr (List.mem_cons_of_mem _ hm)

theorem mem_snapshot_new {q : NeuronsFundNeuronPortion}
    {l : List NeuronsFundNeuronPortion} (h : q ∈ NeuronsFundSnapshot.new l) : q ∈ l := by
  rcases mem_snapshot_new_aux l [] h with hm | hm
  · exact absurd hm (List.not_mem_nil q)
  · exact hm

theorem computePortion_some_elim
    {total : ℕ} {intendedDec : Dec} {limits : SwapParticipationLimits}
    {n : NeuronsFundNeuron} {q : NeuronsFundNeuronPortion}
    (h : computePortion total intendedDec limits n = .value (some q)) :
    q.id = n.id ∧ q.maturity_equivalent_icp_e8s = n.maturity_equivalent_icp_e8s ∧
    q.controller = n.controller ∧ total ≠ 0 ∧
    ∃ v, dec_to_u64 (Dec.mul (Dec.div (u64_to_dec n.maturity_equivalent_icp_e8s)
        (u64_to_dec total)) intendedDec) = .ok v ∧
      limits.min_participant_icp_e8s ≤ v ∧
      ((limits.max_participant_icp_e8s < v ∧ q.amount_icp_e8s = limits.max_participant_icp_e8s
          ∧ q.is_capped = true) ∨
        (v ≤ limits.max_participant_icp_e8s ∧ q.amount_icp_e8s = v ∧ q.is_capped = false)) := by
  rw [computePortion] at h
  split at h
  · exact absurd h (by simp)
  · next htot =>
    rcases hdec : dec_to_u64 (Dec.mul (Dec.div (u64_to_dec n.maturity_equivalent_icp_e8s)
        (u64_to_dec total)) intendedDec) with e | v
    · simp only [hdec] at h
      exact absurd h (by simp)
    · simp only [hdec] at h
      split at h
      · exact absurd h (by simp)
      · next hmin =>
        split at h
        · next hcap =>
          simp only [PanicOr.value.injEq, Option.some.injEq] at h
          refine ⟨by rw [← h], by rw [← h], by rw [← h], htot,
            v, rfl, le_of_not_lt hmin, Or.inl ⟨hcap, by rw [← h], by rw [← h]⟩⟩
        · next hcap =>
          simp only [PanicOr.value.injEq, Option.some.injEq] at h
          refine ⟨by rw [← h], by rw [← h], by rw [← h], htot,
            v, rfl, le_of_not_lt hmin, Or.inr ⟨le_of_not_lt hcap, by rw [← h], by rw [← h]⟩⟩

theorem computePortions_mem
    {total : ℕ} {intendedDec : Dec} {limits : SwapParticipationLimits}
    {nf : List NeuronsFundNeuron} {ports : List NeuronsFundNeuronPortion}
    (h : computePortions total intendedDec limits nf = .value ports)
    {q : NeuronsFundNeuronPortion} (hq : q ∈ ports) :
    ∃ n ∈ nf, computePortion total intendedDec limits n = .value (some q) := by
  induction nf generalizing ports with
  | nil =>
    rw [computePortions] at h
    simp only [PanicOr.value.injEq] at h
    rw [← h] at hq
    exact absurd hq (List.not_mem_nil q)
  | cons n ns ih =>
    rw [computePortions] at h
    rcases hstep : computePortion total intendedDec limits n with msg | o
    · rw [hstep] at h
      exact absurd h (by simp)
    · rw [hstep] at h
      cases o with
      | none =>
        obtain ⟨n', hn', hcp⟩ := ih h hq
        exact ⟨n', List.mem_cons_of_mem _ hn', hcp⟩
      | some p =>
        rcases hrest : computePortions total intendedDec limits ns with msg | ps
        · rw [hrest] at h
          exact absurd h (by simp)
        · rw [hrest] at h
          simp only [PanicOr.value.injEq] at h
          rw [← h] at hq
          rcases List.mem_cons.mp hq with rfl | hq2
          · exact ⟨n, List.mem_cons_self _ _, hstep⟩
          · obtain ⟨n', hn', hcp⟩ := ih hrest hq2
            exact ⟨n', List.mem_cons_of_mem _ hn', hcp⟩

/-- C5 amended: in a participation built by `new_impl`, an id all of whose
fund neurons have a rounded proportional participation amount strictly
below `min_participant_icp_e8s` is absent from the snapshot (the drop
rule of the source compares the amount after `dec_to_u64` rounding, not
the exact decimal product, with the participant minimum). -/
theorem new_impl_drop_stability
    (total d : ℕ) (limits : SwapParticipationLimits) (nf : List NeuronsFundNeuron)
    (f : IdealMatchingFunctionImpl) (p : NeuronsFundParticipation) (i : ℕ)
    (h : NeuronsFundParticipation.new_impl total d limits nf f = .value (.ok p))
    (hdrop : ∀ n ∈ nf, n.id = i → ∀ v,
      dec_to_u64 (Dec.mul (Dec.div (u64_to_dec n.maturity_equivalent_icp_e8s)
        (u64_to_dec total)) (newImplIntendedDec total d limits f)) = .ok v →
      v < limits.min_participant_icp_e8s) :
    ∀ q ∈ p.neurons_fund_reserves, q.id ≠ i := by
  obtain ⟨ports, iv, mv, hcp, hint, hmax, hp⟩ := new_impl_ok_elim h
  intro q hq hid
  rw [hp] at hq
  obtain ⟨n, hn, hcpn⟩ := computePortions_mem hcp (mem_snapshot_new hq)
  obtain ⟨hqid, _, _, _, v, hv, hvmin, _⟩ := computePortion_some_elim hcpn
  exact absurd (hdrop n hn (by rw [← hqid, hid]) v hv) (not_lt.mpr hvmin)

/-- Witness for the amended C5 theorem: with limits
`{min_direct 0, max_direct 100, min_participant 10, max_participant 20}`
and fund `[(id 1, maturity 96), (id 2, maturity 4)]`, neuron 2's rounded
share (`0.4` rounds to `0`) is below the minimum, and id 2 is absent. -/
theorem new_impl_drop_stability_witness :
    ¬ ∃ q ∈ (NeuronsFundSnapshot.new [⟨1, 10, 96, 1, false⟩] :
      List NeuronsFundNeuronPortion), q.id = 2 :=
  fun ⟨q, hq, hqid⟩ =>
  new_impl_drop_stability 100 100 ⟨0, 100, 10, 20⟩ [⟨1, 96, 1⟩, ⟨2, 4, 2⟩]
    SimpleLinearFunction
    ⟨⟨0, 100, 10, 20⟩, SimpleLinearFunction, NeuronsFundSnapshot.new [⟨1, 10, 96, 1, false⟩],
      100, 100, 10, 10⟩ 2 (by rfl)
    (by
      intro n hn hid v hv
      rcases List.mem_cons.mp hn with rfl | hn2
      · exact absurd hid (by decide)
      · rcases List.mem_cons.mp hn2 with rfl | hn3
        · have : v = 0 := by
            have hv0 : dec_to_u64 (Dec.mul (Dec.div (u64_to_dec 4) (u64_to_dec 100))
                (newImplIntendedDec 100 100 ⟨0, 100, 10, 20⟩ SimpleLinearFunction)) =
                .ok 0 := by rfl
            rw [hv0] at hv
            exact (Except.ok.injEq _ _ ▸ hv.symm)
          rw [this]
          decide
        · exact absurd hn3 (List.not_mem_nil _)) q hq hqid

/-- C5 counterexample: with the same limits and fund, neuron 1's exact
proportional share times the intended decimal amount is `9.6`, which is
strictly below `min_participant_icp_e8s = 10`, yet neuron 1 is present in
the snapshot (its `9.6` rounds up to `10`), refuting the claim as stated
over the exact product. -/
theorem new_impl_drop_claim_counterexample :
    NeuronsFundParticipation.new ⟨0, 100, 10, 20⟩ [⟨1, 96, 1⟩, ⟨2, 4, 2⟩]
      SimpleLinearFunction = .value (.ok
        ⟨⟨0, 100, 10, 20⟩, SimpleLinearFunction, [⟨1, 10, 96, 1, false⟩], 100, 100, 10, 10⟩) ∧
    Dec.blt (Dec.mul (Dec.div (u64_to_dec 96) (u64_to_dec 100))
        (newImplIntendedDec 100 100 ⟨0, 100, 10, 20⟩ SimpleLinearFunction))
      (u64_to_dec 10) = true ∧
    ([⟨1, 10, 96, 1, false⟩] : List NeuronsFundNeuronPortion).map (·.id) = [1] := by
  refine ⟨by rfl, by decide, by decide⟩

/-! Ordering and permutation facts about `NeuronsFundSnapshot.new` and the
`BTreeSet` fold of `NeuronsFundSnapshotPb::validate`. -/

theorem snapInsert_sorted {l : List NeuronsFundNeuronPortion}
    {p : NeuronsFundNeuronPortion}
    (h : l.Sorted (fun a b => a.id < b.id)) :
    (snapInsert l p).Sorted (fun a b => a.id < b.id) := by
  induction l with
  | nil => simp [snapInsert]
  | cons q qs ih =>
    rw [List.sorted_cons] at h
    rw [snapInsert]
    split
    · next hlt =>
      rw [List.sorted_cons]
      refine ⟨?_, List.sorted_cons.mpr h⟩
      intro b hb
      rcases List.mem_cons.mp hb with rfl | hb2
      · exact hlt
      · exact lt_trans hlt (h.1 b hb2)
    · split
      · next heq =>
        rw [List.sorted_cons]
        exact ⟨fun b hb => heq ▸ h.1 b hb, h.2⟩
      · next hne =>
        rw [List.sorted_cons]
        refine ⟨?_, ih h.2⟩
        intro b hb
        rcases mem_snapInsert hb with rfl | hb2
        · next hlt => omega
        · exact h.1 b hb2

theorem snapNew_sorted_aux (l acc : List NeuronsFundNeuronPortion)
    (h : acc.Sorted (fun a b => a.id < b.id)) :
    (l.foldl snapInsert acc).Sorted (fun a b => a.id < b.id) := by
  induction l generalizing acc with
  | nil => exact h
  | cons p ps ih => exact ih _ (snapInsert_sorted h)

theorem snapNew_sorted (l : List NeuronsFundNeuronPortion) :
    (NeuronsFundSnapshot.new l).Sorted (fun a b => a.id < b.id) :=
  snapNew_sorted_aux l [] (by simp)

theorem snapInsert_perm {l : List NeuronsFundNeuronPortion}
    {p : NeuronsFundNeuronPortion} (h : p.id ∉ l.map (·.id)) :
    (snapInsert l p).Perm (p :: l) := by
  induction l with
  | nil => rw [snapInsert]
  | cons q qs ih =>
    rw [snapInsert]
    split
    · exact List.Perm.refl _
    · split
      · next heq =>
        exact absurd (List.mem_map.mpr ⟨q, List.mem_cons_self _ _, heq.symm⟩) h
      · have hq : p.id ∉ qs.map (·.id) := by
          intro hc
          exact h (List.mem_map.mpr (by
            obtain ⟨b, hb, hbid⟩ := List.mem_map.mp hc
            exact ⟨b, List.mem_cons_of_mem _ hb, hbid⟩))
        exact ((ih hq).cons q).trans (List.Perm.swap p q qs)

theorem snapNew_perm_aux (l acc : List NeuronsFundNeuronPortion)
    (h : ((acc ++ l).map (·.id)).Nodup) :
    (l.foldl snapInsert acc).Perm (acc ++ l) := by
  induction l generalizing acc with
  | nil => simp
  | cons p ps ih =>
    rw [List.foldl_cons]
    have hpacc : p.id ∉ acc.map (·.id) := by
      intro hc
      rw [List.map_append, List.nodup_append] at h
      exact h.2.2 hc (by simp)
    have hper : (snapInsert acc p).Perm (p :: acc) := snapInsert_perm hpacc
    have hper2 : ((snapInsert acc p) ++ ps).Perm (acc ++ p :: ps) :=
      (hper.append_right ps).trans (List.perm_middle).symm
    have hnodup : (((snapInsert acc p) ++ ps).map (·.id)).Nodup := by
      refine (List.Perm.nodup_iff (List.Perm.map _ hper2)).mpr ?_
      exact h
    exact (ih _ hnodup).trans hper2

theorem snapNew_perm {l : List NeuronsFundNeuronPortion}
    (h : (l.map (·.id)).Nodup) : (NeuronsFundSnapshot.new l).Perm l :=
  snapNew_perm_aux l [] h

theorem sorted_ids_nodup {l : List NeuronsFundNeuronPortion}
    (h : l.Sorted (fun a b => a.id < b.id)) : (l.map (·.id)).Nodup := by
  induction l with
  | nil => simp
  | cons p ps ih =>
    rw [List.sorted_cons] at h
    rw [List.map_cons, List.nodup_cons]
    refine ⟨?_, ih h.2⟩
    intro hc
    obtain ⟨b, hb, hbid⟩ := List.mem_map.mp hc
    exact absurd (hbid ▸ h.1 b hb) (lt_irrefl p.id)

theorem eq_of_perm_of_sorted_ids {l₁ l₂ : List NeuronsFundNeuronPortion}
    (hp : l₁.Perm l₂) (h₁ : l₁.Sorted (fun a b => a.id < b.id))
    (h₂ : l₂.Sorted (fun a b => a.id < b.id)) : l₁ = l₂ :=
  @List.eq_of_perm_of_sorted _ _
    ⟨fun _ _ h1 h2 => absurd (lt_trans h1 h2) (lt_irrefl _)⟩ _ _ hp h₁ h₂

theorem portionKeyEq_symm (a b : NeuronsFundNeuronPortion) :
    portionKeyEq a b = portionKeyEq b a := by
  rw [portionKeyEq, portionKeyEq, Bool.eq_iff_iff]
  simp only [Bool.and_eq_true, beq_iff_eq]
  omega

theorem mem_setInsert {q p : NeuronsFundNeuronPortion}
    {l : List NeuronsFundNeuronPortion} (h : q ∈ setInsert l p) :
    q = p ∨ q ∈ l := by
  induction l with
  | nil =>
    rw [setInsert] at h
    rcases List.mem_singleton.mp h with rfl
    exact Or.inl rfl
  | cons r rs ih =>
    rw [setInsert] at h
    split at h
    · rcases List.mem_cons.mp h with rfl | hm
      · exact Or.inl rfl
      · exact Or.inr hm
    · split at h
      · exact Or.inr h
      · rcases List.mem_cons.mp h with rfl | hm
        · exact Or.inr (List.mem_cons_self _ _)
        · rcases ih hm with hq | hq
          · exact Or.inl hq
          · exact Or.inr (List.mem_cons_of_mem _ hq)

theorem setInsert_perm {l : List NeuronsFundNeuronPortion}
    {p : NeuronsFundNeuronPortion} (h : ∀ q ∈ l, portionKeyEq p q = false) :
    (setInsert l p).Perm (p :: l) := by
  induction l with
  | nil => rw [setInsert]
  | cons q qs ih =>
    rw [setInsert]
    split
    · exact List.Perm.refl _
    · split
      · next heq =>
        exact absurd (h q (List.mem_cons_self _ _)) (by rw [heq]; simp)
      · have hq : ∀ r ∈ qs, portionKeyEq p r = false := fun r hr =>
          h r (List.mem_cons_of_mem _ hr)
        exact ((ih hq).cons q).trans (List.Perm.swap p q qs)

theorem setFold_perm_aux (l acc : List NeuronsFundNeuronPortion)
    (hacc : ∀ a ∈ acc, ∀ b ∈ l, portionKeyEq b a = false)
    (hl : l.Pairwise (fun a b => portionKeyEq a b = false)) :
    (l.foldl setInsert acc).Perm (acc ++ l) := by
  induction l generalizing acc with
  | nil => simp
  | cons p ps ih =>
    rw [List.foldl_cons]
    rw [List.pairwise_cons] at hl
    have hper : (setInsert acc p).Perm (p :: acc) :=
      setInsert_perm (fun q hq => hacc q hq p (List.mem_cons_self _ _))
    have hacc2 : ∀ a ∈ setInsert acc p, ∀ b ∈ ps, portionKeyEq b a = false := by
      intro a ha b hb
      rcases mem_setInsert ha with rfl | ha2
      · rw [portionKeyEq_symm]
        exact hl.1 b hb
      · exact hacc a ha2 b (List.mem_cons_of_mem _ hb)
    have hper2 : ((setInsert acc p) ++ ps).Perm (acc ++ p :: ps) :=
      (hper.append_right ps).trans (List.perm_middle).symm
    exact (ih _ hacc2 hl.2).trans hper2

theorem setFold_perm {l : List NeuronsFundNeuronPortion}
    (h : l.Pairwise (fun a b => portionKeyEq a b = false)) :
    (l.foldl setInsert []).Perm l :=
  setFold_perm_aux l [] (by simp) h

/-! Rounding bounds and the per-portion amount bound. -/

theorem Dec.emod_toRat {a : Dec} (ha : a.WF) :
    ((a.num.emod (a.den : ℤ) : ℤ) : ℚ) = (a.toRat - ⌊a.toRat⌋) * (a.den : ℚ) := by
  have hd : ((a.den : ℚ)) ≠ 0 := ne_of_gt (Dec.den_posQ ha)
  have hQ : ((a.den : ℚ)) * ((⌊a.toRat⌋ : ℤ) : ℚ)
      + ((a.num.emod (a.den : ℤ) : ℤ) : ℚ) = (a.num : ℚ) := by
    have hz := Int.ediv_add_emod a.num (a.den : ℤ)
    rw [show a.num / (a.den : ℤ) = a.num.ediv (a.den : ℤ) from rfl,
      Dec.ediv_eq_floor ha] at hz
    exact_mod_cast hz
  have hnum : a.toRat * (a.den : ℚ) = (a.num : ℚ) := div_mul_cancel₀ _ hd
  linear_combination hQ - hnum

theorem Dec.roundTE_le_half {a : Dec} (ha : a.WF) :
    ((a.roundTE : ℤ) : ℚ) ≤ a.toRat + 1 / 2 := by
  have hda := Dec.den_posQ ha
  have hF := Dec.ediv_eq_floor ha
  have hfl : (⌊a.toRat⌋ : ℚ) ≤ a.toRat := Int.floor_le _
  have hmod := Dec.emod_toRat ha
  rw [Dec.roundTE]
  split
  · rw [hF]
    linarith
  · next h =>
    have hge : 1 / 2 ≤ a.toRat - ⌊a.toRat⌋ := by
      have hcQ : (a.den : ℚ) ≤ 2 * ((a.num.emod (a.den : ℤ) : ℤ) : ℚ) := by
        exact_mod_cast not_lt.mp h
      rw [hmod] at hcQ
      nlinarith
    split
    · next h2 =>
      have hgt : 1 / 2 < a.toRat - ⌊a.toRat⌋ := by
        have hcQ : (a.den : ℚ) < 2 * ((a.num.emod (a.den : ℤ) : ℤ) : ℚ) := by
          exact_mod_cast h2
        rw [hmod] at hcQ
        nlinarith
      rw [hF]
      push_cast
      linarith
    · split
      · rw [hF]
        linarith
      · rw [hF]
        push_cast
        linarith

theorem dec_to_u64_ok_elim {a : Dec} {v : ℕ} (ha : a.WF)
    (h : dec_to_u64 a = .ok v) : 0 ≤ a.toRat ∧ ((v : ℤ) : ℚ) ≤ a.toRat + 1 / 2 := by
  rw [dec_to_u64] at h
  split at h
  · exact absurd h (by simp)
  · next hneg =>
    have h0 : 0 ≤ a.toRat := by
      by_contra hc
      exact hneg ((Dec.isNeg_iff ha).mpr (lt_of_not_le hc))
    have h2 : (if a.roundTE > (U64MAX : ℤ) then
        (Except.error "Overflow while trying to convert value to u64." : Except String ℕ)
        else Except.ok a.roundTE.toNat) = Except.ok v := h
    split at h2
    · exact absurd h2 (by simp)
    · simp only [Except.ok.injEq] at h2
      have hr0 : 0 ≤ a.roundTE := by
        have := Dec.floor_le_roundTE ha
        have hfl0 : 0 ≤ ⌊a.toRat⌋ := Int.floor_nonneg.mpr h0
        omega
      refine ⟨h0, ?_⟩
      rw [← h2, Int.toNat_of_nonneg hr0]
      exact Dec.roundTE_le_half ha

/-- The per-portion amount bound: every portion produced by
`computePortion` at the intended amount of `new_impl` has
`amount_icp_e8s ≤ maturity_equivalent_icp_e8s` (for a well-formed ideal
function). -/
theorem computePortion_amount_le_maturity
    {total d : ℕ} {limits : SwapParticipationLimits}
    {f : IdealMatchingFunctionImpl}
    (hWF : ∀ x, (f.apply x).WF)
    {n : NeuronsFundNeuron} {q : NeuronsFundNeuronPortion}
    (h : computePortion total (newImplIntendedDec total d limits f) limits n
      = .value (some q)) :
    q.amount_icp_e8s ≤ q.maturity_equivalent_icp_e8s := by
  obtain ⟨hid, hmat, hctl, htot, v, hv, hmin, hbranch⟩ := computePortion_some_elim h
  have hamount : q.amount_icp_e8s ≤ v := by
    rcases hbranch with ⟨h1, h2, _⟩ | ⟨h1, h2, _⟩
    · rw [h2]; exact le_of_lt h1
    · rw [h2]
  rw [hmat]
  refine le_trans hamount ?_
  -- v ≤ n.maturity
  set m := n.maturity_equivalent_icp_e8s with hm
  have hWFt : (u64_to_dec total).WF := Dec.WF_u64 _
  have hWFm : (u64_to_dec m).WF := Dec.WF_u64 _
  have htotQ : ((total : ℚ)) ≠ 0 := by exact_mod_cast htot
  have htotQ' : (0 : ℚ) < (total : ℚ) := by
    rcases Nat.eq_zero_or_pos total with h0 | h0
    · exact absurd h0 htot
    · exact_mod_cast h0
  have hnumt : (u64_to_dec total).num ≠ 0 := by
    simp only [u64_to_dec]
    exact_mod_cast htot
  have hWFdiv : (Dec.div (u64_to_dec m) (u64_to_dec total)).WF := Dec.WF_div hWFm hnumt
  have hWFint : (newImplIntendedDec total d limits f).WF := by
    rw [newImplIntendedDec]
    exact Dec.WF_minD (hWF _) (Dec.WF_minD (Dec.WF_u64 _) (hWF _))
  have hWFprod : (Dec.mul (Dec.div (u64_to_dec m) (u64_to_dec total))
      (newImplIntendedDec total d limits f)).WF := Dec.WF_mul hWFdiv hWFint
  obtain ⟨hprod0, hvle⟩ := dec_to_u64_ok_elim hWFprod hv
  -- the product is at most m / 10
  have hdivRat : (Dec.div (u64_to_dec m) (u64_to_dec total)).toRat = (m : ℚ) / (total : ℚ) := by
    rw [Dec.toRat_div hWFm hWFt hnumt, Dec.toRat_u64, Dec.toRat_u64]
  have hintRat : (newImplIntendedDec total d limits f).toRat ≤ (total : ℚ) / 10 := by
    rw [newImplIntendedDec, newImplMaxDec,
      Dec.toRat_minD (hWF _) (Dec.WF_minD (Dec.WF_u64 _) (hWF _)),
      Dec.toRat_minD (Dec.WF_u64 _) (hWF _), Dec.toRat_u64]
    refine le_trans (min_le_right _ _) (le_trans (min_le_left _ _) ?_)
    have hstep1 : ((min (take_max_initial_neurons_fund_participation_percentage total)
        MAX_THEORETICAL_NEURONS_FUND_PARTICIPATION_AMOUNT_ICP_E8S : ℕ) : ℚ)
        ≤ ((take_max_initial_neurons_fund_participation_percentage total : ℕ) : ℚ) := by
      exact_mod_cast Nat.cast_le.mpr (min_le_left _ _)
    refine le_trans hstep1 ?_
    rw [take_max_initial_neurons_fund_participation_percentage]
    refine le_trans (Nat.cast_le.mpr (min_le_left _ _)) ?_
    refine le_trans Nat.cast_div_le ?_
    rw [MAX_NEURONS_FUND_PARTICIPATION_BASIS_POINTS, BASIS_POINTS_PER_UNITY]
    push_cast
    rw [div_le_div_iff₀ (by norm_num) (by norm_num)]
    ring_nf
    exact le_refl _
  have hprodRat : (Dec.mul (Dec.div (u64_to_dec m) (u64_to_dec total))
      (newImplIntendedDec total d limits f)).toRat ≤ (m : ℚ) / 10 := by
    rw [Dec.toRat_mul, hdivRat]
    have hprop0 : (0 : ℚ) ≤ (m : ℚ) / (total : ℚ) := by positivity
    refine le_trans (mul_le_mul_of_nonneg_left hintRat hprop0) ?_
    rw [div_mul_div_comm]
    rw [div_le_div_iff₀ (by positivity) (by norm_num)]
    ring_nf
    nlinarith [htotQ', (Nat.cast_nonneg m : (0 : ℚ) ≤ (m : ℚ))]
  -- conclude v ≤ m
  by_contra hc
  have hvm : (m : ℚ) + 1 ≤ ((v : ℤ) : ℚ) := by
    push_cast
    have : m + 1 ≤ v := Nat.succ_le_of_lt (lt_of_not_le hc)
    exact_mod_cast this
  have : (m : ℚ) + 1 ≤ (m : ℚ) / 10 + 1 / 2 := le_trans hvm (le_trans hvle
    (by linarith [hprodRat]))
  have hm0 : (0 : ℚ) ≤ (m : ℚ) := by positivity
  linarith

/-! C2: the wire round trip. -/

theorem portionPb_validate_toPb {q : NeuronsFundNeuronPortion}
    (h : q.amount_icp_e8s ≤ q.maturity_equivalent_icp_e8s) :
    (NeuronsFundNeuronPortion.toPb q).validate = .ok q := by
  rw [NeuronsFundNeuronPortion.toPb, NeuronsFundNeuronPortionPb.validate]
  simp only []
  rw [if_neg (not_lt.mpr h)]

theorem validatePortionList_toPb {l : List NeuronsFundNeuronPortion}
    (h : ∀ q ∈ l, q.amount_icp_e8s ≤ q.maturity_equivalent_icp_e8s) :
    validatePortionList (l.map NeuronsFundNeuronPortion.toPb) = .ok l := by
  induction l with
  | nil => rfl
  | cons q qs ih =>
    rw [List.map_cons, validatePortionList,
      portionPb_validate_toPb (h q (List.mem_cons_self _ _)),
      ih (fun r hr => h r (List.mem_cons_of_mem _ hr))]

theorem snapshotPb_validate_toPb {l : List NeuronsFundNeuronPortion}
    (hsorted : l.Sorted (fun a b => a.id < b.id))
    (hamount : ∀ q ∈ l, q.amount_icp_e8s ≤ q.maturity_equivalent_icp_e8s)
    (hkeys : l.Pairwise (fun a b => portionKeyEq a b = false)) :
    (NeuronsFundSnapshot.toPb l).validate = .ok l := by
  rw [NeuronsFundSnapshot.toPb, NeuronsFundSnapshotPb.validate]
  simp only [validatePortionList_toPb hamount]
  have hperm : (l.foldl setInsert []).Perm l := setFold_perm hkeys
  have hnodup : ((l.foldl setInsert []).map (·.id)).Nodup :=
    (List.Perm.nodup_iff (List.Perm.map _ hperm)).mpr (sorted_ids_nodup hsorted)
  have hperm2 : (NeuronsFundSnapshot.new (l.foldl setInsert [])).Perm l :=
    (snapNew_perm hnodup).trans hperm
  rw [eq_of_perm_of_sorted_ids hperm2 (snapNew_sorted _) hsorted]

/-- C2 amended: for every participation built via
`NeuronsFundParticipation::new` from a matching function whose serialized
representation is the `SimpleLinearFunction` token and a well-formed
`apply`, provided the snapshot portions have pairwise distinct
(controller, maturity) `Ord` keys, `validate` of the wire form succeeds
and returns a participation equal field by field — the same swap limits,
snapshot portions, direct participation, total maturity, max and intended
amounts, and a matching function with the same serialized
representation.  (Without the key-distinctness proviso the claim fails:
`NeuronsFundSnapshotPb::validate` collects the portions into a `BTreeSet`
ordered only by controller and maturity, which collapses distinct
neurons with equal keys.) -/
theorem wire_validate_roundtrip
    (limits : SwapParticipationLimits) (nf : List NeuronsFundNeuron)
    (f : IdealMatchingFunctionImpl) (p : NeuronsFundParticipation)
    (hWF : ∀ x, (f.apply x).WF)
    (hser : f.serialize = "<SimpleLinearFunction>")
    (h : NeuronsFundParticipation.new limits nf f = .value (.ok p))
    (hkeys : p.neurons_fund_reserves.Pairwise (fun a b => portionKeyEq a b = false)) :
    ∃ q, (NeuronsFundParticipation.toPb p).validate = .ok q ∧
      q.swap_participation_limits = p.swap_participation_limits ∧
      q.neurons_fund_reserves = p.neurons_fund_reserves ∧
      q.direct_participation_icp_e8s = p.direct_participation_icp_e8s ∧
      q.total_maturity_equivalent_icp_e8s = p.total_maturity_equivalent_icp_e8s ∧
      q.max_neurons_fund_swap_participation_icp_e8s
        = p.max_neurons_fund_swap_participation_icp_e8s ∧
      q.intended_neurons_fund_participation_icp_e8s
        = p.intended_neurons_fund_participation_icp_e8s ∧
      q.ideal_matched_participation_function.serialize
        = p.ideal_matched_participation_function.serialize := by
  rw [NeuronsFundParticipation.new] at h
  obtain ⟨ports, iv, mv, hcp, hint, hmax, hp⟩ := new_impl_ok_elim h
  have hfn : p.ideal_matched_participation_function = f := by rw [hp]
  have hres : p.neurons_fund_reserves = NeuronsFundSnapshot.new ports := by rw [hp]
  have hsorted : p.neurons_fund_reserves.Sorted (fun a b => a.id < b.id) := by
    rw [hres]
    exact snapNew_sorted _
  have hamount : ∀ q ∈ p.neurons_fund_reserves,
      q.amount_icp_e8s ≤ q.maturity_equivalent_icp_e8s := by
    intro q hq
    rw [hres] at hq
    obtain ⟨n, _, hn⟩ := computePortions_mem hcp (mem_snapshot_new hq)
    exact computePortion_amount_le_maturity hWF hn
  have hsnap : (NeuronsFundSnapshot.toPb p.neurons_fund_reserves).validate
      = .ok p.neurons_fund_reserves :=
    snapshotPb_validate_toPb hsorted hamount hkeys
  refine ⟨⟨p.swap_participation_limits, SimpleLinearFunction, p.neurons_fund_reserves,
    p.direct_participation_icp_e8s, p.total_maturity_equivalent_icp_e8s,
    p.max_neurons_fund_swap_participation_icp_e8s,
    p.intended_neurons_fund_participation_icp_e8s⟩, ?_, rfl, rfl, rfl, rfl, rfl, rfl, ?_⟩
  · rw [NeuronsFundParticipation.toPb, NeuronsFundParticipationPb.validate]
    simp only [hfn, hser]
    rw [show SimpleLinearFunction.new "<SimpleLinearFunction>" = .ok SimpleLinearFunction
      from rfl]
    simp only [hsnap]
  · rw [hfn, hser]
    rfl

/-- Witness for the amended C2 theorem: a two-neuron fund with distinct
controllers round-trips through the wire form. -/
theorem wire_validate_roundtrip_witness :
    ∃ q, (NeuronsFundParticipation.toPb
        ⟨⟨0, 100, 1, 50⟩, SimpleLinearFunction,
          [⟨1, 10, 100, 7, false⟩, ⟨2, 10, 100, 8, false⟩], 100, 200, 20, 20⟩).validate
      = .ok q ∧
      q.swap_participation_limits = ⟨0, 100, 1, 50⟩ ∧
      q.neurons_fund_reserves = [⟨1, 10, 100, 7, false⟩, ⟨2, 10, 100, 8, false⟩] ∧
      q.direct_participation_icp_e8s = 100 ∧
      q.total_maturity_equivalent_icp_e8s = 200 ∧
      q.max_neurons_fund_swap_participation_icp_e8s = 20 ∧
      q.intended_neurons_fund_participation_icp_e8s = 20 ∧
      q.ideal_matched_participation_function.serialize = "<SimpleLinearFunction>" := by
  obtain ⟨q, h1, h2, h3, h4, h5, h6, h7, h8⟩ := wire_validate_roundtrip
    ⟨0, 100, 1, 50⟩ [⟨1, 100, 7⟩, ⟨2, 100, 8⟩] SimpleLinearFunction
    ⟨⟨0, 100, 1, 50⟩, SimpleLinearFunction,
      [⟨1, 10, 100, 7, false⟩, ⟨2, 10, 100, 8, false⟩], 100, 200, 20, 20⟩
    (fun _ => Dec.WF_u64 _) rfl (by rfl)
    (by simp [portionKeyEq])
  exact ⟨q, h1, h2, h3, h4, h5, h6, h7, h8⟩

/-- C2 counterexample: built via `new` from two neurons with the same
controller and the same maturity, the wire round trip silently collapses
the two snapshot portions into one (the `BTreeSet` in
`NeuronsFundSnapshotPb::validate` orders portions only by controller and
maturity), so `validate(wire(x))` is not equal to `x`. -/
theorem wire_validate_roundtrip_counterexample :
    NeuronsFundParticipation.new ⟨0, 100, 1, 50⟩ [⟨1, 100, 7⟩, ⟨2, 100, 7⟩]
        SimpleLinearFunction
      = .value (.ok ⟨⟨0, 100, 1, 50⟩, SimpleLinearFunction,
          [⟨1, 10, 100, 7, false⟩, ⟨2, 10, 100, 7, false⟩], 100, 200, 20, 20⟩) ∧
    (NeuronsFundParticipation.toPb
        ⟨⟨0, 100, 1, 50⟩, SimpleLinearFunction,
          [⟨1, 10, 100, 7, false⟩, ⟨2, 10, 100, 7, false⟩], 100, 200, 20, 20⟩).validate
      = .ok ⟨⟨0, 100, 1, 50⟩, SimpleLinearFunction,
          [⟨1, 10, 100, 7, false⟩], 100, 200, 20, 20⟩ ∧
    ([⟨1, 10, 100, 7, false⟩] : List NeuronsFundNeuronPortion).length ≠
      ([⟨1, 10, 100, 7, false⟩, ⟨2, 10, 100, 7, false⟩] :
        List NeuronsFundNeuronPortion).length := by
  refine ⟨by rfl, by rfl, by decide⟩

/-! C3: binary-search correctness of `find_interval` and the case
analysis of `MatchedParticipationFunction::apply`. -/

theorem coefficientsChain_get {l : List ValidatedLinearScalingCoefficient}
    (h : coefficientsChain l = true) (k : ℕ) (hk : k + 1 < l.length) :
    (l.get ⟨k, Nat.lt_of_succ_lt hk⟩).to_direct_participation_icp_e8s
      = (l.get ⟨k + 1, hk⟩).from_direct_participation_icp_e8s := by
  induction l generalizing k with
  | nil => exact absurd hk (by simp)
  | cons a rest ih =>
    cases rest with
    | nil => simp at hk
    | cons b rest2 =>
      rw [coefficientsChain, Bool.and_eq_true, beq_iff_eq] at h
      cases k with
      | zero => exact h.1
      | succ kk =>
        exact ih h.2 kk (by simpa using hk)

theorem to_get_le_from_get {l : List ValidatedLinearScalingCoefficient}
    (hchain : coefficientsChain l = true)
    (hlt : ∀ c ∈ l, c.from_direct_participation_icp_e8s < c.to_direct_participation_icp_e8s)
    (i j : ℕ) (hij : i < j) (hj : j < l.length) :
    (l.get ⟨i, lt_trans hij hj⟩).to_direct_participation_icp_e8s
      ≤ (l.get ⟨j, hj⟩).from_direct_participation_icp_e8s := by
  induction j with
  | zero => exact absurd hij (Nat.not_lt_zero i)
  | succ jj ih =>
    rcases Nat.lt_or_ge i jj with hlt2 | hge
    · have h1 := ih hlt2 (Nat.lt_of_succ_lt hj)
      have h2 : (l.get ⟨jj, Nat.lt_of_succ_lt hj⟩).from_direct_participation_icp_e8s
          < (l.get ⟨jj, Nat.lt_of_succ_lt hj⟩).to_direct_participation_icp_e8s :=
        hlt _ (List.get_mem l jj (Nat.lt_of_succ_lt hj))
      have h3 := coefficientsChain_get hchain jj hj
      omega
    · have hij' : i = jj := Nat.le_antisymm (Nat.lt_succ_iff.mp hij) hge
      subst hij'
      rw [coefficientsChain_get hchain i hj]

theorem find_interval_mid_eq {i j : ℕ} (hi : i < 2 ^ 31) (hj : j < 2 ^ 31) :
    find_interval_mid i j = (i + j) / 2 := by
  rw [find_interval_mid]
  have h1 : i % 2 ^ 32 = i := Nat.mod_eq_of_lt (by omega)
  have h2 : j % 2 ^ 32 = j := Nat.mod_eq_of_lt (by omega)
  rw [h1, h2, Nat.mod_eq_of_lt (by omega)]

theorem find_interval_aux_correct {l : List ValidatedLinearScalingCoefficient} (x : ℕ)
    (hlen : l.length ≤ MAX_LINEAR_SCALING_COEFFICIENT_VEC_LEN)
    (hchain : coefficientsChain l = true) :
    ∀ fuel i j (hij : i ≤ j) (hj : j < l.length),
      (l.get ⟨i, lt_of_le_of_lt hij hj⟩).from_direct_participation_icp_e8s ≤ x →
      x < (l.get ⟨j, hj⟩).to_direct_participation_icp_e8s →
      j + 1 - i < fuel →
      ∃ c, find_interval_aux l x fuel i j = some c ∧ c ∈ l ∧
        c.from_direct_participation_icp_e8s ≤ x ∧ x < c.to_direct_participation_icp_e8s := by
  intro fuel
  induction fuel with
  | zero => intro i j hij hj hix hxj hfuel; omega
  | succ fuel ih =>
    intro i j hij hj hix hxj hfuel
    have hi31 : i < 2 ^ 31 := by
      have := lt_of_le_of_lt hij hj
      have := lt_of_lt_of_le this hlen
      rw [MAX_LINEAR_SCALING_COEFFICIENT_VEC_LEN] at this
      omega
    have hj31 : j < 2 ^ 31 := by
      have := lt_of_lt_of_le hj hlen
      rw [MAX_LINEAR_SCALING_COEFFICIENT_VEC_LEN] at this
      omega
    have hmid := find_interval_mid_eq hi31 hj31
    have him : i ≤ (i + j) / 2 := by omega
    have hmj : (i + j) / 2 ≤ j := by omega
    have hm : (i + j) / 2 < l.length := lt_of_le_of_lt hmj hj
    rw [find_interval_aux, if_pos hij]
    simp only [hmid]
    have hget2 := True.intro
    have hget : l[(i + j) / 2]? = some (l.get ⟨(i + j) / 2, hm⟩) := by
      rw [List.getElem?_eq_getElem hm]
      rfl
    simp only [hget]
    set mc := l.get ⟨(i + j) / 2, hm⟩ with hmc
    by_cases hto : mc.to_direct_participation_icp_e8s ≤ x
    · rw [if_pos hto]
      have hmj2 : (i + j) / 2 < j := by
        rcases Nat.lt_or_ge ((i + j) / 2) j with hc | hc
        · exact hc
        · have heqj : (i + j) / 2 = j := Nat.le_antisymm hmj hc
          have hmcj : mc = l.get ⟨j, hj⟩ := by
            rw [hmc]
            exact congrArg l.get (Fin.ext heqj)
          rw [hmcj] at hto
          omega
      have hfrom : (l.get ⟨(i + j) / 2 + 1, by omega⟩).from_direct_participation_icp_e8s ≤ x := by
        rw [← coefficientsChain_get hchain _ (by omega)]
        exact hto
      exact ih ((i + j) / 2 + 1) j (by omega) hj hfrom hxj (by omega)
    · rw [if_neg hto]
      by_cases hfrom : x < mc.from_direct_participation_icp_e8s
      · rw [if_pos hfrom]
        have him2 : i < (i + j) / 2 := by
          rcases Nat.lt_or_ge i ((i + j) / 2) with hc | hc
          · exact hc
          · have heqi : (i + j) / 2 = i := Nat.le_antisymm hc him
            have hmci : mc = l.get ⟨i, lt_of_le_of_lt hij hj⟩ := by
              rw [hmc]
              exact congrArg l.get (Fin.ext heqi)
            rw [hmci] at hfrom
            exact absurd hix (not_le.mpr hfrom)
        rw [if_neg (by omega : ¬ (i + j) / 2 = 0)]
        have hto2 : x < (l.get ⟨(i + j) / 2 - 1, by omega⟩).to_direct_participation_icp_e8s := by
          have hcg := coefficientsChain_get hchain ((i + j) / 2 - 1)
            (by omega : (i + j) / 2 - 1 + 1 < l.length)
          have hxlt : x < (l.get ⟨(i + j) / 2 - 1 + 1,
              by omega⟩).from_direct_participation_icp_e8s := by
            have heq : (i + j) / 2 - 1 + 1 = (i + j) / 2 := by omega
            rw [show (⟨(i + j) / 2 - 1 + 1, by omega⟩ : Fin l.length)
              = ⟨(i + j) / 2, hm⟩ from Fin.ext heq]
            exact hfrom
          omega
        exact ih i ((i + j) / 2 - 1) (by omega) (by omega) hix hto2 (by omega)
      · rw [if_neg hfrom]
        exact ⟨mc, rfl, List.get_mem l _ _, le_of_not_lt hfrom, lt_of_not_le hto⟩

theorem find_interval_correct
    {c : ValidatedNeuronsFundParticipationConstraints} {x : ℕ}
    (hv : c.Valid)
    {first : ValidatedLinearScalingCoefficient}
    (hfirst : c.coefficient_intervals.head? = some first)
    {last : ValidatedLinearScalingCoefficient}
    (hlast : c.coefficient_intervals.getLast? = some last)
    (hxf : first.from_direct_participation_icp_e8s ≤ x)
    (hxl : x < last.to_direct_participation_icp_e8s) :
    ∃ cell, c.find_interval x = some cell ∧ cell ∈ c.coefficient_intervals ∧
      cell.from_direct_participation_icp_e8s ≤ x ∧
      x < cell.to_direct_participation_icp_e8s := by
  obtain ⟨hlen1, hlen2, hcells, hchain, hhead⟩ := hv
  have hlen0 : 0 < c.coefficient_intervals.length := hlen1
  have hnil : c.coefficient_intervals ≠ [] := List.length_pos.mp hlen0
  rw [ValidatedNeuronsFundParticipationConstraints.find_interval]
  simp only [if_neg (by simpa [List.isEmpty_iff] using hnil : 
    ¬ c.coefficient_intervals.isEmpty = true)]
  have hfirstget : c.coefficient_intervals.get ⟨0, hlen0⟩ = first := by
    have h0 : c.coefficient_intervals[0]? = some first := by
      rw [← List.head?_eq_getElem?]
      exact hfirst
    rw [List.getElem?_eq_getElem hlen0] at h0
    injection h0
  have hlastget : c.coefficient_intervals.get
      ⟨c.coefficient_intervals.length - 1, by omega⟩ = last := by
    have h0 := List.getLast?_eq_getLast c.coefficient_intervals hnil
    rw [h0] at hlast
    have h1 : c.coefficient_intervals.getLast hnil = last := by injection hlast
    rw [← h1, List.getLast_eq_getElem]
    rfl
  have := find_interval_aux_correct x hlen2 hchain
    (c.coefficient_intervals.length + 1) 0 (c.coefficient_intervals.length - 1)
    (by omega) (by omega)
    (by
      rw [show (⟨0, by omega⟩ : Fin c.coefficient_intervals.length) = ⟨0, hlen0⟩
        from rfl, hfirstget]
      exact hxf)
    (by
      rw [hlastget]
      exact hxl)
    (by omega)
  exact this

theorem containsX_unique
    {c : ValidatedNeuronsFundParticipationConstraints} {x : ℕ}
    (hv : c.Valid) {c₁ c₂ : ValidatedLinearScalingCoefficient}
    (h₁ : c₁ ∈ c.coefficient_intervals) (h₂ : c₂ ∈ c.coefficient_intervals)
    (hc₁ : c₁.containsX x) (hc₂ : c₂.containsX x) : c₁ = c₂ := by
  obtain ⟨hlen1, hlen2, hcells, hchain, hhead⟩ := hv
  obtain ⟨i₁, hi₁⟩ := List.get_of_mem h₁
  obtain ⟨i₂, hi₂⟩ := List.get_of_mem h₂
  rcases Nat.lt_trichotomy i₁.val i₂.val with hlt | heq | hgt
  · exfalso
    have := to_get_le_from_get hchain
      (fun cc hcc => (hcells cc hcc).1) i₁.val i₂.val hlt i₂.isLt
    rw [show (⟨i₁.val, lt_trans hlt i₂.isLt⟩ : Fin _) = i₁ from Fin.ext rfl,
      show (⟨i₂.val, i₂.isLt⟩ : Fin _) = i₂ from Fin.ext rfl, hi₁, hi₂] at this
    obtain ⟨hf₁, ht₁⟩ := hc₁
    obtain ⟨hf₂, ht₂⟩ := hc₂
    omega
  · rw [← hi₁, ← hi₂]
    exact congrArg _ (Fin.ext heq)
  · exfalso
    have := to_get_le_from_get hchain
      (fun cc hcc => (hcells cc hcc).1) i₂.val i₁.val hgt i₁.isLt
    rw [show (⟨i₂.val, lt_trans hgt i₁.isLt⟩ : Fin _) = i₂ from Fin.ext rfl,
      show (⟨i₁.val, i₁.isLt⟩ : Fin _) = i₁ from Fin.ext rfl, hi₁, hi₂] at this
    obtain ⟨hf₁, ht₁⟩ := hc₁
    obtain ⟨hf₂, ht₂⟩ := hc₂
    omega

theorem cell_to_le_last
    {l : List ValidatedLinearScalingCoefficient}
    (hchain : coefficientsChain l = true)
    (hlt : ∀ cc ∈ l, cc.from_direct_participation_icp_e8s < cc.to_direct_participation_icp_e8s)
    {cell last : ValidatedLinearScalingCoefficient}
    (hcell : cell ∈ l) (hlast : l.getLast? = some last) :
    cell.to_direct_participation_icp_e8s ≤ last.to_direct_participation_icp_e8s := by
  have hnil : l ≠ [] := by
    intro hc
    rw [hc] at hcell
    exact absurd hcell (List.not_mem_nil _)
  have hlen0 : 0 < l.length := List.length_pos.mpr hnil
  have hlastget : l.get ⟨l.length - 1, by omega⟩ = last := by
    have h0 := List.getLast?_eq_getLast l hnil
    rw [h0] at hlast
    have h1 : l.getLast hnil = last := by injection hlast
    rw [← h1, List.getLast_eq_getElem]
    rfl
  obtain ⟨k, hk⟩ := List.get_of_mem hcell
  rcases Nat.lt_or_ge k.val (l.length - 1) with hklt | hkge
  · have h2 := to_get_le_from_get hchain hlt k.val (l.length - 1) hklt (by omega)
    have h3 : (l.get ⟨l.length - 1, by omega⟩).from_direct_participation_icp_e8s
        < (l.get ⟨l.length - 1, by omega⟩).to_direct_participation_icp_e8s :=
      hlt _ (List.get_mem l _ _)
    rw [show (⟨k.val, lt_trans hklt (by omega)⟩ : Fin l.length) = k from Fin.ext rfl, hk] at h2
    rw [hlastget] at h2 h3
    omega
  · have hkeq : k.val = l.length - 1 := by
      have := k.isLt
      omega
    have : cell = last := by
      rw [← hk, ← hlastget]
      exact congrArg l.get (Fin.ext hkeq)
    rw [this]

/-- C3: for every validated constraints bundle and ideal function `f`,
`MatchedParticipationFunction::apply` returns, with cases checked in this
order: `0` when the direct participation `d` is below the participation
threshold (or, past that check, below the first interval); the decimal
embedding of `min(max_neurons_fund_participation_icp_e8s,
THEORETICAL_HARD_CAP)` when `d` is at or beyond the last interval's upper
bound; and otherwise, for the unique interval containing `d`,
`min(hard_cap, intercept + (slope_numerator/slope_denominator) * f(d))`
with saturating decimal addition and multiplication. -/
theorem matched_participation_apply_cases
    (c : ValidatedNeuronsFundParticipationConstraints) (f : ℕ → Dec) (d : ℕ)
    (hv : c.Valid) :
    (d < c.min_direct_participation_threshold_icp_e8s →
      MatchedParticipationFunction.apply c f d = u64_to_dec 0) ∧
    (c.min_direct_participation_threshold_icp_e8s ≤ d →
      ∀ first ∈ c.coefficient_intervals.head?,
        d < first.from_direct_participation_icp_e8s →
        MatchedParticipationFunction.apply c f d = u64_to_dec 0) ∧
    (c.min_direct_participation_threshold_icp_e8s ≤ d →
      ∀ last ∈ c.coefficient_intervals.getLast?,
        last.to_direct_participation_icp_e8s ≤ d →
        MatchedParticipationFunction.apply c f d =
          u64_to_dec (min c.max_neurons_fund_participation_icp_e8s
            MAX_THEORETICAL_NEURONS_FUND_PARTICIPATION_AMOUNT_ICP_E8S)) ∧
    (c.min_direct_participation_threshold_icp_e8s ≤ d →
      ∀ cell ∈ c.coefficient_intervals, cell.containsX d →
        (∀ cell2 ∈ c.coefficient_intervals, cell2.containsX d → cell2 = cell) ∧
        MatchedParticipationFunction.apply c f d =
          Dec.minD (u64_to_dec (min c.max_neurons_fund_participation_icp_e8s
              MAX_THEORETICAL_NEURONS_FUND_PARTICIPATION_AMOUNT_ICP_E8S))
            (Dec.satAddD (u64_to_dec cell.intercept_icp_e8s)
              (Dec.satMulD (Dec.div (u64_to_dec cell.slope_numerator)
                (u64_to_dec cell.slope_denominator)) (f d)))) := by
  have hv' := hv
  obtain ⟨hlen1, hlen2, hcells, hchain, hhead⟩ := hv'
  have hlen0 : 0 < c.coefficient_intervals.length := hlen1
  have hnil : c.coefficient_intervals ≠ [] := List.length_pos.mp hlen0
  obtain ⟨first, hfirst⟩ : ∃ first, c.coefficient_intervals.head? = some first := by
    cases hh : c.coefficient_intervals.head? with
    | none =>
      rw [List.head?_eq_none_iff] at hh
      exact absurd hh hnil
    | some a => exact ⟨a, rfl⟩
  obtain ⟨last, hlast⟩ : ∃ last, c.coefficient_intervals.getLast? = some last := by
    cases hh : c.coefficient_intervals.getLast? with
    | none =>
      rw [List.getLast?_eq_none_iff] at hh
      exact absurd hh hnil
    | some a => exact ⟨a, rfl⟩
  have hfirst0 : first.from_direct_participation_icp_e8s = 0 := hhead first hfirst
  refine ⟨?_, ?_, ?_, ?_⟩
  · intro hd
    rw [MatchedParticipationFunction.apply, if_pos hd]
  · intro hd first2 hfirst2 hdf
    rw [hfirst] at hfirst2
    have : first2 = first := by
      injection hfirst2 with h
      exact h.symm
    rw [this, hfirst0] at hdf
    exact absurd hdf (Nat.not_lt_zero d)
  · intro hd last2 hlast2 hdl
    rw [hlast] at hlast2
    have hl2 : last2 = last := by
      injection hlast2 with h
      exact h.symm
    rw [hl2] at hdl
    rw [MatchedParticipationFunction.apply, if_neg (not_lt.mpr hd), hfirst, hlast]
    simp only []
    rw [if_neg (by rw [hfirst0]; exact Nat.not_lt_zero d), if_pos hdl]
  · intro hd cell hcell hcontains
    have huniq : ∀ cell2 ∈ c.coefficient_intervals, cell2.containsX d → cell2 = cell :=
      fun cell2 hcell2 hcont2 => containsX_unique hv hcell2 hcell hcont2 hcontains
    refine ⟨huniq, ?_⟩
    have hdlast : d < last.to_direct_participation_icp_e8s :=
      lt_of_lt_of_le hcontains.2
        (cell_to_le_last hchain (fun cc hcc => (hcells cc hcc).1) hcell hlast)
    obtain ⟨cell', hfi, hcell', hfrom', hto'⟩ := find_interval_correct hv hfirst hlast
      (by rw [hfirst0]; exact Nat.zero_le d) hdlast
    have hceq : cell' = cell := huniq cell' hcell' ⟨hfrom', hto'⟩
    rw [MatchedParticipationFunction.apply, if_neg (not_lt.mpr hd), hfirst, hlast]
    simp only []
    rw [if_neg (by rw [hfirst0]; exact Nat.not_lt_zero d),
      if_neg (not_le.mpr hdlast), hfi, hceq]

theorem LinearScalingCoefficient.tryFrom_ok_elim
    {c : LinearScalingCoefficient} {v : ValidatedLinearScalingCoefficient}
    (h : c.tryFrom = .ok v) :
    v.from_direct_participation_icp_e8s < v.to_direct_participation_icp_e8s ∧
    0 < v.slope_denominator ∧ v.slope_numerator ≤ v.slope_denominator := by
  obtain ⟨fo, to2, sno, sdo, ico⟩ := c
  rcases fo with _ | f
  · exact absurd h (by simp [LinearScalingCoefficient.tryFrom])
  rcases to2 with _ | t
  · exact absurd h (by simp [LinearScalingCoefficient.tryFrom])
  rcases sno with _ | sn
  · exact absurd h (by simp [LinearScalingCoefficient.tryFrom])
  rcases sdo with _ | sd
  · exact absurd h (by simp [LinearScalingCoefficient.tryFrom])
  rcases ico with _ | ic
  · exact absurd h (by simp [LinearScalingCoefficient.tryFrom])
  simp only [LinearScalingCoefficient.tryFrom] at h
  split at h
  · exact absurd h (by simp)
  split at h
  · exact absurd h (by simp)
  split at h
  · exact absurd h (by simp)
  rename_i h1 h2 h3
  simp only [Except.ok.injEq] at h
  rw [← h]
  refine ⟨?_, ?_, ?_⟩
  · show f < t
    omega
  · show 0 < sd
    omega
  · show sn ≤ sd
    omega

theorem validateCoefficientList_ok_elim
    {cs : List LinearScalingCoefficient} {vs : List ValidatedLinearScalingCoefficient}
    (h : validateCoefficientList cs = .ok vs) :
    vs.length = cs.length ∧
    ∀ v ∈ vs, v.from_direct_participation_icp_e8s < v.to_direct_participation_icp_e8s ∧
      0 < v.slope_denominator ∧ v.slope_numerator ≤ v.slope_denominator := by
  induction cs generalizing vs with
  | nil =>
    simp only [validateCoefficientList, Except.ok.injEq] at h
    rw [← h]
    exact ⟨rfl, fun v hv => absurd hv (List.not_mem_nil v)⟩
  | cons c cs ih =>
    rw [validateCoefficientList] at h
    split at h
    · exact absurd h (by simp)
    rename_i v hv
    split at h
    · exact absurd h (by simp)
    rename_i vs2 hvs
    simp only [Except.ok.injEq] at h
    rw [← h]
    obtain ⟨hlen, hmem⟩ := ih hvs
    have hv3 := LinearScalingCoefficient.tryFrom_ok_elim hv
    refine ⟨by simp [hlen], ?_⟩
    intro w hw
    rcases List.mem_cons.mp hw with h1 | h1
    · rw [h1]; exact hv3
    · exact hmem w h1

/-- Every successfully validated constraints bundle satisfies the `Valid`
invariants. -/
theorem tryFrom_valid
    {pb : NeuronsFundParticipationConstraints}
    {c : ValidatedNeuronsFundParticipationConstraints}
    (h : pb.tryFrom = .ok c) : c.Valid := by
  rw [NeuronsFundParticipationConstraints.tryFrom] at h
  split at h
  · exact absurd h (by simp)
  split at h
  · exact absurd h (by simp)
  split at h
  · exact absurd h (by simp)
  rename_i hrange
  split at h
  · exact absurd h (by simp)
  rename_i intervals hvl
  obtain ⟨hlen, hmem⟩ := validateCoefficientList_ok_elim hvl
  obtain ⟨hr1, hr2⟩ := not_or.mp hrange
  have hr1' : 1 ≤ pb.coefficient_intervals.length := not_lt.mp hr1
  have hr2' : pb.coefficient_intervals.length ≤ MAX_LINEAR_SCALING_COEFFICIENT_VEC_LEN :=
    not_lt.mp hr2
  split at h
  · exact absurd h (by simp)
  rename_i hchainb
  have hchain : coefficientsChain intervals = true := by
    revert hchainb
    cases coefficientsChain intervals <;> simp
  split at h
  · rename_i first hfirst
    split at h
    · exact absurd h (by simp)
    rename_i hfz
    have h0 : first.from_direct_participation_icp_e8s = 0 := not_not.mp hfz
    simp only [Except.ok.injEq] at h
    rw [← h]
    refine ⟨?_, ?_, ?_, ?_, ?_⟩
    · show 1 ≤ intervals.length
      omega
    · show intervals.length ≤ MAX_LINEAR_SCALING_COEFFICIENT_VEC_LEN
      omega
    · exact hmem
    · exact hchain
    · intro fw hfw
      rw [hfirst] at hfw
      injection hfw with h2
      rw [← h2, h0]
  · rename_i hnone
    have hempty : intervals = [] := List.head?_eq_none_iff.mp hnone
    rw [hempty] at hlen
    simp only [List.length_nil] at hlen
    omega

theorem matched_participation_apply_cases_witness :
    (⟨5, 95, [⟨0, 10, 1, 2, 5⟩, ⟨10, 20, 1, 1, 7⟩]⟩ :
        ValidatedNeuronsFundParticipationConstraints).Valid ∧
    5 ≤ 15 ∧
    (⟨10, 20, 1, 1, 7⟩ : ValidatedLinearScalingCoefficient).containsX 15 ∧
    MatchedParticipationFunction.apply
      ⟨5, 95, [⟨0, 10, 1, 2, 5⟩, ⟨10, 20, 1, 1, 7⟩]⟩ (fun x => u64_to_dec x) 15 =
      Dec.minD (u64_to_dec (min 95
          MAX_THEORETICAL_NEURONS_FUND_PARTICIPATION_AMOUNT_ICP_E8S))
        (Dec.satAddD (u64_to_dec 7)
          (Dec.satMulD (Dec.div (u64_to_dec 1) (u64_to_dec 1)) (u64_to_dec 15))) :=
  ⟨by decide, by decide, by decide,
    ((matched_participation_apply_cases
        ⟨5, 95, [⟨0, 10, 1, 2, 5⟩, ⟨10, 20, 1, 1, 7⟩]⟩ (fun x => u64_to_dec x) 15
        (by decide)).2.2.2 (by decide) ⟨10, 20, 1, 1, 7⟩ (by decide) (by decide)).2⟩

theorem invertLoop_epilogue (f : ℕ → Dec) (target : Dec)
    (fuel : ℕ) (prev : Option (ℕ × Dec)) (cx : ℕ) (cy : Dec) (l r : ℕ)
    (trace : List BinSearchIter) (hguard : ¬ l ≤ r) :
    ((invertLoop f target (fuel + 1) prev cx cy l r trace).1 = trace ∨
     (invertLoop f target (fuel + 1) prev cx cy l r trace).1 = trace.dropLast) ∧
    (invertLoop f target (fuel + 1) prev cx cy l r trace).2 ≠
      PanicOr.panicked "out of fuel" := by
  rcases prev with _ | ⟨x0, y0⟩
  · rw [invertLoop, if_neg hguard]
    exact ⟨Or.inl rfl, by
      intro hc
      injection hc with h
      exact absurd h (by decide)⟩
  · rw [invertLoop, if_neg hguard]
    by_cases hb : Dec.blt (Dec.absD (Dec.subD target cy)) (Dec.absD (Dec.subD target y0)) = true
    · rw [if_pos hb]
      exact ⟨Or.inl rfl, fun hc => PanicOr.noConfusion hc⟩
    · rw [if_neg hb]
      exact ⟨Or.inr rfl, fun hc => PanicOr.noConfusion hc⟩

theorem traceSnoc_nodup {trace : List BinSearchIter} {entry : BinSearchIter}
    (hnd : (trace.map BinSearchIter.x).Nodup)
    (hout : ∀ e ∈ trace, e.x ≠ entry.x) :
    ((trace ++ [entry]).map BinSearchIter.x).Nodup := by
  rw [List.map_append, List.nodup_append]
  refine ⟨hnd, List.nodup_singleton _, ?_⟩
  intro a ha hb
  simp only [List.map_cons, List.map_nil, List.mem_singleton] at hb
  obtain ⟨e, he, hex⟩ := List.mem_map.mp ha
  exact hout e he (by rw [hex, hb])

theorem invertLoop_exit_inv (f : ℕ → Dec) (target : Dec)
    (fuel : ℕ) (prev : Option (ℕ × Dec)) (cx : ℕ) (cy : Dec) (l r : ℕ)
    (trace : List BinSearchIter) (hguard : ¬ l ≤ r)
    (htr : ∀ e ∈ trace, e.left ≤ e.right ∧ e.right ≤ U64MAX)
    (hnd : (trace.map BinSearchIter.x).Nodup) :
    (invertLoop f target (fuel + 1) prev cx cy l r trace).1.length ≤ trace.length ∧
    (∀ e ∈ (invertLoop f target (fuel + 1) prev cx cy l r trace).1,
      e.left ≤ e.right ∧ e.right ≤ U64MAX) ∧
    ((invertLoop f target (fuel + 1) prev cx cy l r trace).1.map BinSearchIter.x).Nodup ∧
    (invertLoop f target (fuel + 1) prev cx cy l r trace).2 ≠
      PanicOr.panicked "out of fuel" := by
  obtain ⟨hcase, hnp⟩ := invertLoop_epilogue f target fuel prev cx cy l r trace hguard
  rcases hcase with h | h <;> rw [h]
  · exact ⟨le_refl _, htr, hnd, hnp⟩
  · refine ⟨?_, ?_, ?_, hnp⟩
    · rw [List.length_dropLast]
      omega
    · intro e he
      exact htr e (List.dropLast_subset trace he)
    · exact List.Nodup.sublist ((List.dropLast_sublist trace).map _) hnd

theorem traceStep_inv (y : Dec) {trace : List BinSearchIter} {l r : ℕ}
    (hg : l ≤ r) (hr : r ≤ U64MAX)
    (htr : ∀ e ∈ trace, (e.x < l ∨ r < e.x) ∧ e.left ≤ e.right ∧ e.right ≤ U64MAX)
    (hnd : (trace.map BinSearchIter.x).Nodup) :
    (trace ++ [(⟨l, (l + r) / 2, r, y⟩ : BinSearchIter)]).length = trace.length + 1 ∧
    (∀ e ∈ trace ++ [(⟨l, (l + r) / 2, r, y⟩ : BinSearchIter)],
      e.left ≤ e.right ∧ e.right ≤ U64MAX) ∧
    ((trace ++ [(⟨l, (l + r) / 2, r, y⟩ : BinSearchIter)]).map BinSearchIter.x).Nodup := by
  refine ⟨?_, ?_, ?_⟩
  · simp [List.length_append]
  · intro e he
    rcases List.mem_append.mp he with h1 | h1
    · exact (htr e h1).2
    · rw [List.mem_singleton] at h1
      rw [h1]
      exact ⟨hg, hr⟩
  · refine traceSnoc_nodup hnd ?_
    intro e he
    have h1 := (htr e he).1
    show e.x ≠ (l + r) / 2
    omega

theorem traceStep_ctx (y : Dec) {trace : List BinSearchIter} {l r l2 r2 : ℕ}
    (hg : l ≤ r) (hr : r ≤ U64MAX)
    (hl2 : l ≤ l2) (hr2 : r2 ≤ r)
    (hmid : (l + r) / 2 < l2 ∨ r2 < (l + r) / 2)
    (htr : ∀ e ∈ trace, (e.x < l ∨ r < e.x) ∧ e.left ≤ e.right ∧ e.right ≤ U64MAX) :
    ∀ e ∈ trace ++ [(⟨l, (l + r) / 2, r, y⟩ : BinSearchIter)],
      (e.x < l2 ∨ r2 < e.x) ∧ e.left ≤ e.right ∧ e.right ≤ U64MAX := by
  intro e he
  rcases List.mem_append.mp he with h1 | h1
  · obtain ⟨hx, hb⟩ := htr e h1
    exact ⟨by omega, hb⟩
  · rw [List.mem_singleton] at h1
    rw [h1]
    refine ⟨?_, hg, hr⟩
    show (l + r) / 2 < l2 ∨ r2 < (l + r) / 2
    omega

theorem invertLoop_inv (f : ℕ → Dec) (target : Dec) :
    ∀ (k fuel : ℕ) (prev : Option (ℕ × Dec)) (cx : ℕ) (cy : Dec) (l r : ℕ)
      (trace : List BinSearchIter),
    r ≤ U64MAX → r + 1 - l ≤ 2 ^ k → k + 2 ≤ fuel →
    (∀ e ∈ trace, (e.x < l ∨ r < e.x) ∧ e.left ≤ e.right ∧ e.right ≤ U64MAX) →
    (trace.map BinSearchIter.x).Nodup →
    (prev = none ∨ ∃ x0 y0, prev = some (x0, y0) ∧ (x0 < l ∨ r < x0)) →
    (invertLoop f target fuel prev cx cy l r trace).1.length ≤ trace.length + (k + 1) ∧
    (∀ e ∈ (invertLoop f target fuel prev cx cy l r trace).1,
      e.left ≤ e.right ∧ e.right ≤ U64MAX) ∧
    ((invertLoop f target fuel prev cx cy l r trace).1.map BinSearchIter.x).Nodup ∧
    (invertLoop f target fuel prev cx cy l r trace).2 ≠ PanicOr.panicked "out of fuel" := by
  intro k
  induction k with
  | zero =>
    intro fuel prev cx cy l r trace hr hs hf htr hnd hprev
    obtain ⟨fuel1, rfl⟩ : ∃ fuel1, fuel = fuel1 + 1 := ⟨fuel - 1, by omega⟩
    by_cases hgd : l ≤ r
    · have h20 : (2:ℕ) ^ 0 = 1 := rfl
      have hlr : l = r := by omega
      obtain ⟨fuel2, rfl⟩ : ∃ fuel2, fuel1 = fuel2 + 1 := ⟨fuel1 - 1, by omega⟩
      obtain ⟨p1, p2, p3⟩ := traceStep_inv (f ((l + r) / 2)) hgd hr htr hnd
      rcases hprev with rfl | ⟨x0, y0, rfl, hx0⟩
      · rw [invertLoop, if_pos hgd]
        simp only []
        rw [if_neg (fun hc => Bool.noConfusion hc),
          if_neg (fun hc => Bool.noConfusion hc)]
        by_cases hbeq : Dec.beq (f ((l + r) / 2)) target = true
        · rw [if_pos hbeq]
          exact ⟨le_trans (le_of_eq p1) (by omega), p2, p3,
            fun hc => PanicOr.noConfusion hc⟩
        · rw [if_neg hbeq]
          by_cases hblt : Dec.blt (f ((l + r) / 2)) target = true
          · rw [if_pos hblt]
            have hgd2 : ¬ ((l + r) / 2 + 1 ≤ r) := by omega
            obtain ⟨q1, q2, q3, q4⟩ := invertLoop_exit_inv f target fuel2
              (some ((l + r) / 2, f ((l + r) / 2))) ((l + r) / 2) (f ((l + r) / 2))
              ((l + r) / 2 + 1) r
              (trace ++ [⟨l, (l + r) / 2, r, f ((l + r) / 2)⟩]) hgd2
              (fun e he => (p2 e he)) p3
            exact ⟨le_trans q1 (le_trans (le_of_eq p1) (by omega)), q2, q3, q4⟩
          · rw [if_neg hblt]
            by_cases hz : (l + r) / 2 = 0
            · rw [if_pos hz]
              exact ⟨le_trans (le_of_eq p1) (by omega), p2, p3,
                fun hc => PanicOr.noConfusion hc⟩
            · rw [if_neg hz]
              have hgd2 : ¬ (l ≤ (l + r) / 2 - 1) := by omega
              obtain ⟨q1, q2, q3, q4⟩ := invertLoop_exit_inv f target fuel2
                (some ((l + r) / 2, f ((l + r) / 2))) ((l + r) / 2) (f ((l + r) / 2))
                l ((l + r) / 2 - 1)
                (trace ++ [⟨l, (l + r) / 2, r, f ((l + r) / 2)⟩]) hgd2
                (fun e he => (p2 e he)) p3
              exact ⟨le_trans q1 (le_trans (le_of_eq p1) (by omega)), q2, q3, q4⟩
      · have hA : ¬ (((l + r) / 2 == x0) = true) :=
          fun hc => absurd (eq_of_beq hc) (by omega)
        rw [invertLoop, if_pos hgd]
        simp only []
        rw [if_neg hA]
        by_cases hmono : ((x0 < (l + r) / 2 && Dec.blt (f ((l + r) / 2)) y0)
            || ((l + r) / 2 < x0 && Dec.blt y0 (f ((l + r) / 2)))) = true
        · rw [if_pos hmono]
          exact ⟨le_trans (le_of_eq p1) (by omega), p2, p3,
            fun hc => PanicOr.noConfusion hc⟩
        · rw [if_neg hmono]
          by_cases hbeq : Dec.beq (f ((l + r) / 2)) target = true
          · rw [if_pos hbeq]
            exact ⟨le_trans (le_of_eq p1) (by omega), p2, p3,
              fun hc => PanicOr.noConfusion hc⟩
          · rw [if_neg hbeq]
            by_cases hblt : Dec.blt (f ((l + r) / 2)) target = true
            · rw [if_pos hblt]
              have hgd2 : ¬ ((l + r) / 2 + 1 ≤ r) := by omega
              obtain ⟨q1, q2, q3, q4⟩ := invertLoop_exit_inv f target fuel2
                (some ((l + r) / 2, f ((l + r) / 2))) ((l + r) / 2) (f ((l + r) / 2))
                ((l + r) / 2 + 1) r
                (trace ++ [⟨l, (l + r) / 2, r, f ((l + r) / 2)⟩]) hgd2
                (fun e he => (p2 e he)) p3
              exact ⟨le_trans q1 (le_trans (le_of_eq p1) (by omega)), q2, q3, q4⟩
            · rw [if_neg hblt]
              by_cases hz : (l + r) / 2 = 0
              · rw [if_pos hz]
                exact ⟨le_trans (le_of_eq p1) (by omega), p2, p3,
                  fun hc => PanicOr.noConfusion hc⟩
              · rw [if_neg hz]
                have hgd2 : ¬ (l ≤ (l + r) / 2 - 1) := by omega
                obtain ⟨q1, q2, q3, q4⟩ := invertLoop_exit_inv f target fuel2
                  (some ((l + r) / 2, f ((l + r) / 2))) ((l + r) / 2) (f ((l + r) / 2))
                  l ((l + r) / 2 - 1)
                  (trace ++ [⟨l, (l + r) / 2, r, f ((l + r) / 2)⟩]) hgd2
                  (fun e he => (p2 e he)) p3
                exact ⟨le_trans q1 (le_trans (le_of_eq p1) (by omega)), q2, q3, q4⟩
    · obtain ⟨h1, h2, h3, h4⟩ := invertLoop_exit_inv f target fuel1 prev cx cy l r trace hgd
        (fun e he => (htr e he).2) hnd
      exact ⟨le_trans h1 (Nat.le_add_right _ _), h2, h3, h4⟩
  | succ k ih =>
    intro fuel prev cx cy l r trace hr hs hf htr hnd hprev
    obtain ⟨fuel1, rfl⟩ : ∃ fuel1, fuel = fuel1 + 1 := ⟨fuel - 1, by omega⟩
    by_cases hgd : l ≤ r
    · have hpow : (2:ℕ) ^ (k + 1) = 2 * 2 ^ k := by rw [pow_succ]; ring
      obtain ⟨p1, p2, p3⟩ := traceStep_inv (f ((l + r) / 2)) hgd hr htr hnd
      have hlen : (trace ++ [(⟨l, (l + r) / 2, r, f ((l + r) / 2)⟩ : BinSearchIter)]).length
          + (k + 1) ≤ trace.length + (k + 1 + 1) := by
        rw [p1]
        omega
      rcases hprev with rfl | ⟨x0, y0, rfl, hx0⟩
      · rw [invertLoop, if_pos hgd]
        simp only []
        rw [if_neg (fun hc => Bool.noConfusion hc),
          if_neg (fun hc => Bool.noConfusion hc)]
        by_cases hbeq : Dec.beq (f ((l + r) / 2)) target = true
        · rw [if_pos hbeq]
          exact ⟨le_trans (le_of_eq p1) (by omega), p2, p3,
            fun hc => PanicOr.noConfusion hc⟩
        · rw [if_neg hbeq]
          by_cases hblt : Dec.blt (f ((l + r) / 2)) target = true
          · rw [if_pos hblt]
            obtain ⟨q1, q2, q3, q4⟩ := ih fuel1
              (some ((l + r) / 2, f ((l + r) / 2))) ((l + r) / 2) (f ((l + r) / 2))
              ((l + r) / 2 + 1) r
              (trace ++ [⟨l, (l + r) / 2, r, f ((l + r) / 2)⟩])
              hr (by omega) (by omega)
              (traceStep_ctx (f ((l + r) / 2)) hgd hr (by omega) (le_refl r)
                (Or.inl (by omega)) htr) p3
              (Or.inr ⟨(l + r) / 2, f ((l + r) / 2), rfl, Or.inl (by omega)⟩)
            exact ⟨le_trans q1 hlen, q2, q3, q4⟩
          · rw [if_neg hblt]
            by_cases hz : (l + r) / 2 = 0
            · rw [if_pos hz]
              exact ⟨le_trans (le_of_eq p1) (by omega), p2, p3,
                fun hc => PanicOr.noConfusion hc⟩
            · rw [if_neg hz]
              obtain ⟨q1, q2, q3, q4⟩ := ih fuel1
                (some ((l + r) / 2, f ((l + r) / 2))) ((l + r) / 2) (f ((l + r) / 2))
                l ((l + r) / 2 - 1)
                (trace ++ [⟨l, (l + r) / 2, r, f ((l + r) / 2)⟩])
                (by omega) (by omega) (by omega)
                (traceStep_ctx (f ((l + r) / 2)) hgd hr (le_refl l) (by omega)
                  (Or.inr (by omega)) htr) p3
                (Or.inr ⟨(l + r) / 2, f ((l + r) / 2), rfl, Or.inr (by omega)⟩)
              exact ⟨le_trans q1 hlen, q2, q3, q4⟩
      · have hA : ¬ (((l + r) / 2 == x0) = true) :=
          fun hc => absurd (eq_of_beq hc) (by omega)
        rw [invertLoop, if_pos hgd]
        simp only []
        rw [if_neg hA]
        by_cases hmono : ((x0 < (l + r) / 2 && Dec.blt (f ((l + r) / 2)) y0)
            || ((l + r) / 2 < x0 && Dec.blt y0 (f ((l + r) / 2)))) = true
        · rw [if_pos hmono]
          exact ⟨le_trans (le_of_eq p1) (by omega), p2, p3,
            fun hc => PanicOr.noConfusion hc⟩
        · rw [if_neg hmono]
          by_cases hbeq : Dec.beq (f ((l + r) / 2)) target = true
          · rw [if_pos hbeq]
            exact ⟨le_trans (le_of_eq p1) (by omega), p2, p3,
              fun hc => PanicOr.noConfusion hc⟩
          · rw [if_neg hbeq]
            by_cases hblt : Dec.blt (f ((l + r) / 2)) target = true
            · rw [if_pos hblt]
              obtain ⟨q1, q2, q3, q4⟩ := ih fuel1
                (some ((l + r) / 2, f ((l + r) / 2))) ((l + r) / 2) (f ((l + r) / 2))
                ((l + r) / 2 + 1) r
                (trace ++ [⟨l, (l + r) / 2, r, f ((l + r) / 2)⟩])
                hr (by omega) (by omega)
                (traceStep_ctx (f ((l + r) / 2)) hgd hr (by omega) (le_refl r)
                  (Or.inl (by omega)) htr) p3
                (Or.inr ⟨(l + r) / 2, f ((l + r) / 2), rfl, Or.inl (by omega)⟩)
              exact ⟨le_trans q1 hlen, q2, q3, q4⟩
            · rw [if_neg hblt]
              by_cases hz : (l + r) / 2 = 0
              · rw [if_pos hz]
                exact ⟨le_trans (le_of_eq p1) (by omega), p2, p3,
                  fun hc => PanicOr.noConfusion hc⟩
              · rw [if_neg hz]
                obtain ⟨q1, q2, q3, q4⟩ := ih fuel1
                  (some ((l + r) / 2, f ((l + r) / 2))) ((l + r) / 2) (f ((l + r) / 2))
                  l ((l + r) / 2 - 1)
                  (trace ++ [⟨l, (l + r) / 2, r, f ((l + r) / 2)⟩])
                  (by omega) (by omega) (by omega)
                  (traceStep_ctx (f ((l + r) / 2)) hgd hr (le_refl l) (by omega)
                    (Or.inr (by omega)) htr) p3
                  (Or.inr ⟨(l + r) / 2, f ((l + r) / 2), rfl, Or.inr (by omega)⟩)
                exact ⟨le_trans q1 hlen, q2, q3, q4⟩
    · obtain ⟨h1, h2, h3, h4⟩ := invertLoop_exit_inv f target fuel1 prev cx cy l r trace hgd
        (fun e he => (htr e he).2) hnd
      exact ⟨le_trans h1 (Nat.le_add_right _ _), h2, h3, h4⟩

/-- C7: for every ideal-matching function and every target value, the
binary search of `invert_with_tracing` performs at most 65 iterations, so
the returned trace has length at most 65 and the loop terminates (the
fuel bound is never hit); every trace entry records bounds with
`left ≤ right ≤ u64::MAX`, and no probe value `x` is ever repeated. -/
theorem invert_with_tracing_bound (f : ℕ → Dec) (target : Dec) :
    (invert_with_tracing f target).1.length ≤ 65 ∧
    (∀ e ∈ (invert_with_tracing f target).1,
      e.left ≤ e.right ∧ e.right ≤ U64MAX) ∧
    ((invert_with_tracing f target).1.map BinSearchIter.x).Nodup ∧
    (invert_with_tracing f target).2 ≠ PanicOr.panicked "out of fuel" := by
  rw [invert_with_tracing]
  by_cases hneg : Dec.isNeg target = true
  · rw [if_pos hneg]
    exact ⟨by simp, fun e he => absurd he (List.not_mem_nil e), List.nodup_nil,
      fun hc => PanicOr.noConfusion hc⟩
  · rw [if_neg hneg]
    simp only []
    obtain ⟨q1, q2, q3, q4⟩ := invertLoop_inv f target 64 66 none
      ((0 + U64MAX) / 2) (f ((0 + U64MAX) / 2)) 0 U64MAX []
      (le_refl _) (by decide) (by decide)
      (fun e he => absurd he (List.not_mem_nil e)) List.nodup_nil (Or.inl rfl)
    exact ⟨le_trans q1 (by simp), q2, q3, q4⟩

theorem invertLoop_strict_mono_finds (f : ℕ → Dec)
    (hWF : ∀ z, (f z).WF)
    (hmono : ∀ a b : ℕ, a < b → (f a).toRat < (f b).toRat)
    (x : ℕ) :
    ∀ (k fuel : ℕ) (prev : Option (ℕ × Dec)) (cx : ℕ) (cy : Dec) (l r : ℕ)
      (trace : List BinSearchIter),
    l ≤ x → x ≤ r → r + 1 - l ≤ 2 ^ k → k < fuel →
    (prev = none ∨ ∃ x0, prev = some (x0, f x0) ∧ (x0 < l ∨ r < x0)) →
    ∃ tr2, invertLoop f (f x) fuel prev cx cy l r trace
      = (tr2, PanicOr.value (Except.ok x)) := by
  intro k
  induction k with
  | zero =>
    intro fuel prev cx cy l r trace hlx hxr hs hf hprev
    have h20 : (2:ℕ) ^ 0 = 1 := rfl
    have hgd : l ≤ r := le_trans hlx hxr
    have hmx : (l + r) / 2 = x := by omega
    obtain ⟨fuel1, rfl⟩ : ∃ fuel1, fuel = fuel1 + 1 := ⟨fuel - 1, by omega⟩
    have hbeqT : Dec.beq (f ((l + r) / 2)) (f x) = true :=
      (Dec.beq_iff (hWF _) (hWF _)).mpr (by rw [hmx])
    rcases hprev with rfl | ⟨x0, rfl, hx0⟩
    · rw [invertLoop, if_pos hgd]
      simp only []
      rw [if_neg (fun hc => Bool.noConfusion hc),
        if_neg (fun hc => Bool.noConfusion hc), if_pos hbeqT]
      exact ⟨_, by rw [hmx]⟩
    · have hA : ¬ (((l + r) / 2 == x0) = true) :=
        fun hc => absurd (eq_of_beq hc) (by omega)
      have hmonoF : ¬ ((x0 < (l + r) / 2 && Dec.blt (f ((l + r) / 2)) (f x0))
          || ((l + r) / 2 < x0 && Dec.blt (f x0) (f ((l + r) / 2)))) = true := by
        intro hc
        simp only [Bool.or_eq_true, Bool.and_eq_true, decide_eq_true_eq] at hc
        rcases hc with ⟨ha2, hb⟩ | ⟨ha2, hb⟩
        · have hb2 := (Dec.blt_iff (hWF _) (hWF _)).mp hb
          exact absurd (hmono _ _ ha2) (not_lt.mpr (le_of_lt hb2))
        · have hb2 := (Dec.blt_iff (hWF _) (hWF _)).mp hb
          exact absurd (hmono _ _ ha2) (not_lt.mpr (le_of_lt hb2))
      rw [invertLoop, if_pos hgd]
      simp only []
      rw [if_neg hA, if_neg hmonoF, if_pos hbeqT]
      exact ⟨_, by rw [hmx]⟩
  | succ k ih =>
    intro fuel prev cx cy l r trace hlx hxr hs hf hprev
    have hgd : l ≤ r := le_trans hlx hxr
    have hpow : (2:ℕ) ^ (k + 1) = 2 * 2 ^ k := by rw [pow_succ]; ring
    obtain ⟨fuel1, rfl⟩ : ∃ fuel1, fuel = fuel1 + 1 := ⟨fuel - 1, by omega⟩
    by_cases hmx : (l + r) / 2 = x
    · have hbeqT : Dec.beq (f ((l + r) / 2)) (f x) = true :=
        (Dec.beq_iff (hWF _) (hWF _)).mpr (by rw [hmx])
      rcases hprev with rfl | ⟨x0, rfl, hx0⟩
      · rw [invertLoop, if_pos hgd]
        simp only []
        rw [if_neg (fun hc => Bool.noConfusion hc),
          if_neg (fun hc => Bool.noConfusion hc), if_pos hbeqT]
        exact ⟨_, by rw [hmx]⟩
      · have hA : ¬ (((l + r) / 2 == x0) = true) :=
          fun hc => absurd (eq_of_beq hc) (by omega)
        have hmonoF : ¬ ((x0 < (l + r) / 2 && Dec.blt (f ((l + r) / 2)) (f x0))
            || ((l + r) / 2 < x0 && Dec.blt (f x0) (f ((l + r) / 2)))) = true := by
          intro hc
          simp only [Bool.or_eq_true, Bool.and_eq_true, decide_eq_true_eq] at hc
          rcases hc with ⟨ha2, hb⟩ | ⟨ha2, hb⟩
          · have hb2 := (Dec.blt_iff (hWF _) (hWF _)).mp hb
            exact absurd (hmono _ _ ha2) (not_lt.mpr (le_of_lt hb2))
          · have hb2 := (Dec.blt_iff (hWF _) (hWF _)).mp hb
            exact absurd (hmono _ _ ha2) (not_lt.mpr (le_of_lt hb2))
        rw [invertLoop, if_pos hgd]
        simp only []
        rw [if_neg hA, if_neg hmonoF, if_pos hbeqT]
        exact ⟨_, by rw [hmx]⟩
    · have hbeqF : ¬ (Dec.beq (f ((l + r) / 2)) (f x) = true) :=
        fun hc => hmx (by
          have h1 := (Dec.beq_iff (hWF _) (hWF _)).mp hc
          rcases Nat.lt_trichotomy ((l + r) / 2) x with h2 | h2 | h2
          · exact absurd h1 (ne_of_lt (hmono _ _ h2))
          · exact h2
          · exact absurd h1 (ne_of_gt (hmono _ _ h2)))
      by_cases hblt : Dec.blt (f ((l + r) / 2)) (f x) = true
      · have hmlt : (l + r) / 2 < x := by
          rcases Nat.lt_trichotomy ((l + r) / 2) x with h2 | h2 | h2
          · exact h2
          · exact absurd h2 hmx
          · exact absurd ((Dec.blt_iff (hWF _) (hWF _)).mp hblt)
              (not_lt.mpr (le_of_lt (hmono _ _ h2)))
        have hih := ih fuel1 (some ((l + r) / 2, f ((l + r) / 2))) ((l + r) / 2)
          (f ((l + r) / 2)) ((l + r) / 2 + 1) r
          (trace ++ [⟨l, (l + r) / 2, r, f ((l + r) / 2)⟩])
          (by omega) hxr (by omega) (by omega)
          (Or.inr ⟨(l + r) / 2, rfl, Or.inl (by omega)⟩)
        rcases hprev with rfl | ⟨x0, rfl, hx0⟩
        · rw [invertLoop, if_pos hgd]
          simp only []
          rw [if_neg (fun hc => Bool.noConfusion hc),
            if_neg (fun hc => Bool.noConfusion hc), if_neg hbeqF, if_pos hblt]
          exact hih
        · have hA : ¬ (((l + r) / 2 == x0) = true) :=
            fun hc => absurd (eq_of_beq hc) (by omega)
          have hmonoF : ¬ ((x0 < (l + r) / 2 && Dec.blt (f ((l + r) / 2)) (f x0))
              || ((l + r) / 2 < x0 && Dec.blt (f x0) (f ((l + r) / 2)))) = true := by
            intro hc
            simp only [Bool.or_eq_true, Bool.and_eq_true, decide_eq_true_eq] at hc
            rcases hc with ⟨ha2, hb⟩ | ⟨ha2, hb⟩
            · have hb2 := (Dec.blt_iff (hWF _) (hWF _)).mp hb
              exact absurd (hmono _ _ ha2) (not_lt.mpr (le_of_lt hb2))
            · have hb2 := (Dec.blt_iff (hWF _) (hWF _)).mp hb
              exact absurd (hmono _ _ ha2) (not_lt.mpr (le_of_lt hb2))
          rw [invertLoop, if_pos hgd]
          simp only []
          rw [if_neg hA, if_neg hmonoF, if_neg hbeqF, if_pos hblt]
          exact hih
      · have hxlt : x < (l + r) / 2 := by
          rcases Nat.lt_trichotomy ((l + r) / 2) x with h2 | h2 | h2
          · exact absurd ((Dec.blt_iff (hWF _) (hWF _)).mpr (hmono _ _ h2)) hblt
          · exact absurd h2 hmx
          · exact h2
        have hz : ¬ ((l + r) / 2 = 0) := by omega
        have hih := ih fuel1 (some ((l + r) / 2, f ((l + r) / 2))) ((l + r) / 2)
          (f ((l + r) / 2)) l ((l + r) / 2 - 1)
          (trace ++ [⟨l, (l + r) / 2, r, f ((l + r) / 2)⟩])
          hlx (by omega) (by omega) (by omega)
          (Or.inr ⟨(l + r) / 2, rfl, Or.inr (by omega)⟩)
        rcases hprev with rfl | ⟨x0, rfl, hx0⟩
        · rw [invertLoop, if_pos hgd]
          simp only []
          rw [if_neg (fun hc => Bool.noConfusion hc),
            if_neg (fun hc => Bool.noConfusion hc), if_neg hbeqF, if_neg hblt,
            if_neg hz]
          exact hih
        · have hA : ¬ (((l + r) / 2 == x0) = true) :=
            fun hc => absurd (eq_of_beq hc) (by omega)
          have hmonoF : ¬ ((x0 < (l + r) / 2 && Dec.blt (f ((l + r) / 2)) (f x0))
              || ((l + r) / 2 < x0 && Dec.blt (f x0) (f ((l + r) / 2)))) = true := by
            intro hc
            simp only [Bool.or_eq_true, Bool.and_eq_true, decide_eq_true_eq] at hc
            rcases hc with ⟨ha2, hb⟩ | ⟨ha2, hb⟩
            · have hb2 := (Dec.blt_iff (hWF _) (hWF _)).mp hb
              exact absurd (hmono _ _ ha2) (not_lt.mpr (le_of_lt hb2))
            · have hb2 := (Dec.blt_iff (hWF _) (hWF _)).mp hb
              exact absurd (hmono _ _ ha2) (not_lt.mpr (le_of_lt hb2))
          rw [invertLoop, if_pos hgd]
          simp only []
          rw [if_neg hA, if_neg hmonoF, if_neg hbeqF, if_neg hblt, if_neg hz]
          exact hih

/-- C6 (amended): for every implementation whose `apply` is well-formed and
strictly increasing over the naturals and non-negative at 0, and every
`x ≤ u64::MAX`, `invert(apply(x))` returns `Ok(x)` exactly (hence the
result differs from `x` by at most 1; for a merely non-decreasing `apply`
the round-trip can be off by billions, see the counterexample). -/
theorem invert_round_trip (f : ℕ → Dec)
    (hWF : ∀ z, (f z).WF)
    (hmono : ∀ a b : ℕ, a < b → (f a).toRat < (f b).toRat)
    (h0 : 0 ≤ (f 0).toRat)
    (x : ℕ) (hx : x ≤ U64MAX) :
    invert f (f x) = PanicOr.value (Except.ok x) := by
  have hnn : 0 ≤ (f x).toRat := by
    rcases Nat.eq_zero_or_pos x with rfl | hpos
    · exact h0
    · exact le_of_lt (lt_of_le_of_lt h0 (hmono 0 x hpos))
  have hneg : ¬ (Dec.isNeg (f x) = true) := by
    intro hc
    exact absurd ((Dec.isNeg_iff (hWF x)).mp hc) (not_lt.mpr hnn)
  rw [invert, invert_with_tracing, if_neg hneg]
  simp only []
  obtain ⟨tr2, heq⟩ := invertLoop_strict_mono_finds f hWF hmono x 64 66 none
    ((0 + U64MAX) / 2) (f ((0 + U64MAX) / 2)) 0 U64MAX []
    (Nat.zero_le x) hx (by decide) (by decide) (Or.inl rfl)
  rw [heq]

theorem invert_round_trip_witness :
    7 ≤ U64MAX ∧
    invert (fun z => u64_to_dec z) (u64_to_dec 7) = PanicOr.value (Except.ok 7) :=
  ⟨by decide, invert_round_trip (fun z => u64_to_dec z)
    (fun z => Dec.WF_u64 z)
    (fun a b h => by rw [Dec.toRat_u64, Dec.toRat_u64]; exact_mod_cast h)
    (by rw [Dec.toRat_u64]; norm_num) 7 (by decide)⟩

/-- C6 counterexample to the original claim: the constant function 5 is
monotonically non-decreasing over the whole domain, yet inverting its
value at `x = 0` returns `Ok(9223372036854775807)` (the first probe of
the binary search), which differs from 0 by far more than 1. -/
theorem invert_round_trip_counterexample :
    (∀ a b : ℕ, a ≤ b →
      ((fun _ : ℕ => u64_to_dec 5) a).toRat ≤ ((fun _ : ℕ => u64_to_dec 5) b).toRat) ∧
    invert (fun _ : ℕ => u64_to_dec 5) ((fun _ : ℕ => u64_to_dec 5) 0)
      = PanicOr.value (Except.ok 9223372036854775807) ∧
    ¬ (9223372036854775807 ≤ 0 + 1) :=
  ⟨fun a b h => le_refl _, by rfl, by decide⟩

theorem satAdd_le_max (a b : ℕ) : satAdd a b ≤ U64MAX := by
  rw [satAdd]
  omega

theorem satFold_min (l : List ℕ) : ∀ a, a ≤ U64MAX →
    l.foldl satAdd a = min (a + l.sum) U64MAX := by
  induction l with
  | nil =>
    intro a ha
    simp only [List.foldl_nil, List.sum_nil]
    omega
  | cons b t ih =>
    intro a ha
    rw [List.foldl_cons, ih _ (satAdd_le_max a b), List.sum_cons, satAdd]
    omega

theorem total_amount_eq_min (s : List NeuronsFundNeuronPortion) :
    total_amount_icp_e8s s = min (amountSum s) U64MAX := by
  rw [total_amount_icp_e8s, amountSum, ← List.foldl_map,
    satFold_min _ 0 (by decide)]
  have hmap : List.map (fun x : NeuronsFundNeuronPortion => x.amount_icp_e8s) s
      = List.map NeuronsFundNeuronPortion.amount_icp_e8s s := rfl
  rw [hmap]
  omega

theorem amountSum_cons (q : NeuronsFundNeuronPortion)
    (t : List NeuronsFundNeuronPortion) :
    amountSum (q :: t) = q.amount_icp_e8s + amountSum t := by
  rw [amountSum, amountSum, List.map_cons, List.sum_cons]

theorem removeById_sum :
    ∀ (ded : List NeuronsFundNeuronPortion) (i : ℕ) (p : NeuronsFundNeuronPortion)
      (ded2 : List NeuronsFundNeuronPortion),
    removeById ded i = (some p, ded2) →
    amountSum ded = p.amount_icp_e8s + amountSum ded2 := by
  intro ded
  induction ded with
  | nil =>
    intro i p ded2 h
    rw [removeById] at h
    exact absurd h (by simp)
  | cons q qs ih =>
    intro i p ded2 h
    rw [removeById] at h
    split at h
    · simp only [Prod.mk.injEq, Option.some.injEq] at h
      obtain ⟨h1, h2⟩ := h
      rw [amountSum_cons, h1, ← h2]
    · simp only [Prod.mk.injEq] at h
      obtain ⟨h1, h2⟩ := h
      cases hrm : removeById qs i with
      | mk o rest =>
        rw [hrm] at h1 h2
        have h3 : o = some p := h1
        have h4 : q :: rest = ded2 := h2
        have hsum := ih i p rest (by rw [hrm, h3])
        rw [amountSum_cons, hsum, ← h4, amountSum_cons]
        omega

theorem diffAux_conservation :
    ∀ (ls ded res : List NeuronsFundNeuronPortion),
    diffAux ls ded = .ok res → amountSum ls = amountSum res + amountSum ded := by
  intro ls
  induction ls with
  | nil =>
    intro ded res h
    rw [diffAux] at h
    split at h
    · rename_i he
      have hded : ded = [] := List.isEmpty_iff.mp he
      simp only [Except.ok.injEq] at h
      rw [← h, hded]
      rfl
    · exact absurd h (by simp)
  | cons left ls ih =>
    intro ded res h
    rw [diffAux] at h
    split at h
    · rename_i right ded2 hrm
      split at h
      · exact absurd h (by simp)
      rename_i hlt
      split at h
      · exact absurd h (by simp)
      rename_i hmat
      split at h
      · exact absurd h (by simp)
      rename_i hctl
      split at h
      · exact absurd h (by simp)
      rename_i hcap
      cases hda : diffAux ls ded2 with
      | error e =>
        rw [hda] at h
        exact absurd h (by simp [Bind.bind, Except.bind])
      | ok rest =>
        rw [hda] at h
        simp only [Bind.bind, Except.bind, Except.ok.injEq] at h
        have hsum := ih ded2 rest hda
        have hded := removeById_sum ded left.id right ded2 hrm
        have hra : right.amount_icp_e8s ≤ left.amount_icp_e8s := not_lt.mp hlt
        rw [← h, amountSum_cons, amountSum_cons, hsum, hded]
        simp only []
        omega
    · rename_i hrm
      cases hda : diffAux ls ded with
      | error e =>
        rw [hda] at h
        exact absurd h (by simp [Bind.bind, Except.bind])
      | ok rest =>
        rw [hda] at h
        simp only [Bind.bind, Except.bind, Except.ok.injEq] at h
        have hsum := ih ded rest hda
        rw [← h, amountSum_cons, amountSum_cons, hsum]
        simp only []
        omega

/-- C1 (amended): conservation of refunds holds whenever the exact
(non-saturating) amount sum of the initial snapshot fits in `u64`: for
every initial participation built by `NeuronsFundParticipation::new`,
every final participation obtained from it by
`from_initial_participation`, and a successful refund
`initial.snapshot().diff(final.snapshot())`, the saturating total of the
initial snapshot minus that of the final snapshot equals that of the
refund.  Without the bound, the saturating totals break the equation (see
the counterexample with 554000 maximal portions). -/
theorem conservation_of_refunds
    {lim : SwapParticipationLimits} {fund : List NeuronsFundNeuron}
    {fimpl : IdealMatchingFunctionImpl} {init fin : NeuronsFundParticipation}
    {d : ℕ} {refund : List NeuronsFundNeuronPortion}
    (hinit : NeuronsFundParticipation.new lim fund fimpl = .value (.ok init))
    (hfin : init.from_initial_participation d = .value (.ok fin))
    (hdiff : NeuronsFundSnapshot.diff init.neurons_fund_reserves
      fin.neurons_fund_reserves = .ok refund)
    (hbound : amountSum init.neurons_fund_reserves ≤ U64MAX) :
    total_amount_icp_e8s init.neurons_fund_reserves
      - total_amount_icp_e8s fin.neurons_fund_reserves
      = total_amount_icp_e8s refund := by
  have hcons := diffAux_conservation _ _ _ hdiff
  rw [total_amount_eq_min, total_amount_eq_min, total_amount_eq_min]
  omega

theorem conservation_of_refunds_witness :
    NeuronsFundParticipation.new ⟨0, 10000000000, 1, 5000000000⟩
      [⟨1, 10000000000, 1⟩, ⟨2, 10000000000, 2⟩] SimpleLinearFunction
      = .value (.ok ⟨⟨0, 10000000000, 1, 5000000000⟩, SimpleLinearFunction,
        [⟨1, 1000000000, 10000000000, 1, false⟩, ⟨2, 1000000000, 10000000000, 2, false⟩],
        10000000000, 20000000000, 2000000000, 2000000000⟩) ∧
    NeuronsFundParticipation.from_initial_participation
      ⟨⟨0, 10000000000, 1, 5000000000⟩, SimpleLinearFunction,
        [⟨1, 1000000000, 10000000000, 1, false⟩, ⟨2, 1000000000, 10000000000, 2, false⟩],
        10000000000, 20000000000, 2000000000, 2000000000⟩ 1000000000
      = .value (.ok ⟨⟨0, 10000000000, 1, 5000000000⟩, SimpleLinearFunction,
        [⟨1, 500000000, 10000000000, 1, false⟩, ⟨2, 500000000, 10000000000, 2, false⟩],
        1000000000, 20000000000, 2000000000, 1000000000⟩) ∧
    NeuronsFundSnapshot.diff
      [⟨1, 1000000000, 10000000000, 1, false⟩, ⟨2, 1000000000, 10000000000, 2, false⟩]
      [⟨1, 500000000, 10000000000, 1, false⟩, ⟨2, 500000000, 10000000000, 2, false⟩]
      = .ok [⟨1, 500000000, 10000000000, 1, false⟩,
        ⟨2, 500000000, 10000000000, 2, false⟩] ∧
    amountSum [(⟨1, 1000000000, 10000000000, 1, false⟩ : NeuronsFundNeuronPortion),
      ⟨2, 1000000000, 10000000000, 2, false⟩] ≤ U64MAX ∧
    total_amount_icp_e8s
        [(⟨1, 1000000000, 10000000000, 1, false⟩ : NeuronsFundNeuronPortion),
          ⟨2, 1000000000, 10000000000, 2, false⟩]
      - total_amount_icp_e8s
        [(⟨1, 500000000, 10000000000, 1, false⟩ : NeuronsFundNeuronPortion),
          ⟨2, 500000000, 10000000000, 2, false⟩]
      = total_amount_icp_e8s
        [(⟨1, 500000000, 10000000000, 1, false⟩ : NeuronsFundNeuronPortion),
          ⟨2, 500000000, 10000000000, 2, false⟩] :=
  ⟨by rfl, by rfl, by rfl, by decide,
    @conservation_of_refunds ⟨0, 10000000000, 1, 5000000000⟩
      [⟨1, 10000000000, 1⟩, ⟨2, 10000000000, 2⟩] SimpleLinearFunction
      ⟨⟨0, 10000000000, 1, 5000000000⟩, SimpleLinearFunction,
        [⟨1, 1000000000, 10000000000, 1, false⟩, ⟨2, 1000000000, 10000000000, 2, false⟩],
        10000000000, 20000000000, 2000000000, 2000000000⟩
      ⟨⟨0, 10000000000, 1, 5000000000⟩, SimpleLinearFunction,
        [⟨1, 500000000, 10000000000, 1, false⟩, ⟨2, 500000000, 10000000000, 2, false⟩],
        1000000000, 20000000000, 2000000000, 1000000000⟩
      1000000000
      [⟨1, 500000000, 10000000000, 1, false⟩, ⟨2, 500000000, 10000000000, 2, false⟩]
      (by rfl) (by rfl) (by rfl) (by decide)⟩

theorem upNeurons_map_maturity : ∀ (n k : ℕ),
    (upNeurons k n).map (fun q => q.maturity_equivalent_icp_e8s)
      = List.replicate n U64MAX := by
  intro n
  induction n with
  | zero => intro k; rfl
  | succ n ih =>
    intro k
    rw [upNeurons, List.map_cons, ih (k + 1), List.replicate_succ]

theorem satAdd_max_right (a : ℕ) : satAdd a U64MAX = U64MAX := by
  rw [satAdd]
  omega

theorem satFold_replicate_max : ∀ (n : ℕ), 1 ≤ n →
    (List.replicate n U64MAX).foldl satAdd 0 = U64MAX := by
  intro n
  induction n with
  | zero => intro h; exact absurd h (by omega)
  | succ n ih =>
    intro h
    rw [satFold_min _ 0 (by decide), List.sum_replicate, smul_eq_mul]
    have h2 : U64MAX ≤ (n + 1) * U64MAX := Nat.le_mul_of_pos_left _ (by omega)
    have h3 : n.succ * U64MAX = (n + 1) * U64MAX := rfl
    omega

theorem upNeurons_total (n k : ℕ) (h : 1 ≤ n) :
    ((upNeurons k n).map (fun q => q.maturity_equivalent_icp_e8s)).foldl satAdd 0
      = U64MAX := by
  rw [upNeurons_map_maturity n k]
  exact satFold_replicate_max n h

theorem computePortion_id_congr (total : ℕ) (intended : Dec)
    (lim : SwapParticipationLimits) (m ctl a : ℕ) (c : Bool) (k1 k2 : ℕ)
    (h : computePortion total intended lim ⟨k1, m, ctl⟩
      = .value (some ⟨k1, a, m, ctl, c⟩)) :
    computePortion total intended lim ⟨k2, m, ctl⟩
      = .value (some ⟨k2, a, m, ctl, c⟩) := by
  rw [computePortion] at h ⊢
  simp only [] at h ⊢
  split at h
  · exact absurd h (by simp)
  rename_i ht
  rw [if_neg ht]
  rcases hd : dec_to_u64 (Dec.mul (Dec.div (u64_to_dec m) (u64_to_dec total)) intended)
    with e | ideal
  · simp only [hd] at h
    exact absurd h (by simp)
  · simp only [hd] at h ⊢
    split at h
    · exact absurd h (by simp)
    rename_i hmin
    rw [if_neg hmin]
    split at h
    · rename_i hmax
      rw [if_pos hmax]
      simp only [PanicOr.value.injEq, Option.some.injEq,
        NeuronsFundNeuronPortion.mk.injEq] at h
      obtain ⟨h1, h2, h3, h4, h5⟩ := h
      rw [h2, h5]
    · rename_i hmax
      rw [if_neg hmax]
      simp only [PanicOr.value.injEq, Option.some.injEq,
        NeuronsFundNeuronPortion.mk.injEq] at h
      obtain ⟨h1, h2, h3, h4, h5⟩ := h
      rw [h2, h5]

theorem computePortions_up (total : ℕ) (intended : Dec)
    (lim : SwapParticipationLimits) (a : ℕ) (c : Bool)
    (h : computePortion total intended lim ⟨0, U64MAX, 0⟩
      = .value (some ⟨0, a, U64MAX, 0, c⟩)) :
    ∀ n k, computePortions total intended lim (upNeurons k n)
      = .value (upPortions a c k n) := by
  have hk : ∀ k, computePortion total intended lim ⟨k, U64MAX, 0⟩
      = .value (some ⟨k, a, U64MAX, 0, c⟩) :=
    fun k => computePortion_id_congr total intended lim U64MAX 0 a c 0 k h
  intro n
  induction n with
  | zero => intro k; rfl
  | succ n ih =>
    intro k
    rw [upNeurons, computePortions, hk k, ih (k + 1), upPortions]

theorem upPortions_mem_id (a : ℕ) (c : Bool) : ∀ (n k : ℕ),
    ∀ q ∈ upPortions a c k n, k ≤ q.id := by
  intro n
  induction n with
  | zero =>
    intro k q hq
    exact absurd hq (List.not_mem_nil q)
  | succ n ih =>
    intro k q hq
    rw [upPortions] at hq
    rcases List.mem_cons.mp hq with h1 | h1
    · rw [h1]
    · exact le_trans (by omega) (ih (k + 1) q h1)

theorem upPortions_sorted (a : ℕ) (c : Bool) : ∀ (n k : ℕ),
    (upPortions a c k n).Sorted (fun x y => x.id < y.id) := by
  intro n
  induction n with
  | zero => intro k; exact List.sorted_nil
  | succ n ih =>
    intro k
    rw [upPortions, List.sorted_cons]
    refine ⟨?_, ih (k + 1)⟩
    intro q hq
    have h1 := upPortions_mem_id a c n (k + 1) q hq
    show k < q.id
    omega

theorem snapNew_sorted_id_eq {l : List NeuronsFundNeuronPortion}
    (h : l.Sorted (fun x y => x.id < y.id)) :
    NeuronsFundSnapshot.new l = l :=
  eq_of_perm_of_sorted_ids (snapNew_perm (sorted_ids_nodup h)) (snapNew_sorted l) h

theorem upPortions_map_neuron (a : ℕ) (c : Bool) : ∀ (n k : ℕ),
    (upPortions a c k n).map (fun portion =>
      (⟨portion.id, portion.maturity_equivalent_icp_e8s, portion.controller⟩
        : NeuronsFundNeuron)) = upNeurons k n := by
  intro n
  induction n with
  | zero => intro k; rfl
  | succ n ih =>
    intro k
    rw [upPortions, List.map_cons, ih (k + 1), upNeurons]

theorem removeById_head (p : NeuronsFundNeuronPortion)
    (ps : List NeuronsFundNeuronPortion) :
    removeById (p :: ps) p.id = (some p, ps) := by
  rw [removeById, if_pos rfl]

theorem amountSum_up (a : ℕ) (c : Bool) : ∀ (n k : ℕ),
    amountSum (upPortions a c k n) = n * a := by
  intro n
  induction n with
  | zero =>
    intro k
    rw [upPortions]
    show (0:ℕ) = 0 * a
    ring
  | succ n ih =>
    intro k
    rw [upPortions, amountSum_cons, ih (k + 1)]
    show a + n * a = (n + 1) * a
    ring

theorem diffAux_up (A B : ℕ) (hAB : B ≤ A) : ∀ n k,
    diffAux (upPortions A false k n) (upPortions B false k n)
      = .ok (upPortions (A - B) false k n) := by
  intro n
  induction n with
  | zero => intro k; rfl
  | succ n ih =>
    intro k
    rw [upPortions, upPortions, diffAux]
    have h1 : removeById (⟨k, B, U64MAX, 0, false⟩ :: upPortions B false (k + 1) n) k
        = (some ⟨k, B, U64MAX, 0, false⟩, upPortions B false (k + 1) n) :=
      removeById_head _ _
    simp only [h1]
    rw [if_neg (not_lt.mpr hAB)]
    rw [if_neg (fun hc : U64MAX ≠ U64MAX => hc rfl)]
    rw [if_neg (fun hc : (0 : ℕ) ≠ 0 => hc rfl)]
    rw [if_neg (fun hc => Bool.noConfusion hc)]
    rw [ih (k + 1)]
    rfl

theorem new_up (n : ℕ) (h : 1 ≤ n) :
    NeuronsFundParticipation.new ⟨0, 33300000000000, 10, 18446744073709551615⟩
      (upNeurons 0 n) SimpleLinearFunction
    = .value (.ok ⟨⟨0, 33300000000000, 10, 18446744073709551615⟩, SimpleLinearFunction,
        upPortions 33300000000000 false 0 n,
        33300000000000, U64MAX, 33300000000000, 33300000000000⟩) := by
  rw [NeuronsFundParticipation.new]
  simp only []
  rw [upNeurons_total n 0 h]
  rw [NeuronsFundParticipation.new_impl]
  simp only []
  rw [computePortions_up U64MAX
    (newImplIntendedDec U64MAX 33300000000000
      ⟨0, 33300000000000, 10, 18446744073709551615⟩ SimpleLinearFunction)
    ⟨0, 33300000000000, 10, 18446744073709551615⟩
    33300000000000 false (by rfl) n 0]
  simp only []
  rw [snapNew_sorted_id_eq (upPortions_sorted 33300000000000 false n 0)]
  rfl

theorem from_initial_up (n : ℕ) :
    NeuronsFundParticipation.from_initial_participation
      ⟨⟨0, 33300000000000, 10, 18446744073709551615⟩, SimpleLinearFunction,
        upPortions 33300000000000 false 0 n,
        33300000000000, U64MAX, 33300000000000, 33300000000000⟩ 10
    = .value (.ok ⟨⟨0, 33300000000000, 10, 18446744073709551615⟩, SimpleLinearFunction,
        upPortions 10 false 0 n, 10, U64MAX, 33300000000000, 10⟩) := by
  rw [NeuronsFundParticipation.from_initial_participation]
  simp only []
  rw [upPortions_map_neuron 33300000000000 false n 0]
  rw [show SimpleLinearFunction.new SimpleLinearFunction.serialize
    = .ok SimpleLinearFunction from rfl]
  simp only []
  rw [NeuronsFundParticipation.new_impl]
  simp only []
  rw [computePortions_up U64MAX
    (newImplIntendedDec U64MAX 10
      ⟨0, 33300000000000, 10, 18446744073709551615⟩ SimpleLinearFunction)
    ⟨0, 33300000000000, 10, 18446744073709551615⟩
    10 false (by rfl) n 0]
  simp only []
  rw [snapNew_sorted_id_eq (upPortions_sorted 10 false n 0)]
  rfl

theorem diff_up_554000 :
    NeuronsFundSnapshot.diff
      ((⟨⟨0, 33300000000000, 10, 18446744073709551615⟩, SimpleLinearFunction,
        upPortions 33300000000000 false 0 554000,
        33300000000000, U64MAX, 33300000000000, 33300000000000⟩
        : NeuronsFundParticipation).neurons_fund_reserves)
      ((⟨⟨0, 33300000000000, 10, 18446744073709551615⟩, SimpleLinearFunction,
        upPortions 10 false 0 554000, 10, U64MAX, 33300000000000, 10⟩
        : NeuronsFundParticipation).neurons_fund_reserves)
      = .ok (upPortions (33300000000000 - 10) false 0 554000) := by
  rw [show ((⟨⟨0, 33300000000000, 10, 18446744073709551615⟩, SimpleLinearFunction,
        upPortions 33300000000000 false 0 554000,
        33300000000000, U64MAX, 33300000000000, 33300000000000⟩
        : NeuronsFundParticipation).neurons_fund_reserves)
      = upPortions 33300000000000 false 0 554000 from rfl,
    show ((⟨⟨0, 33300000000000, 10, 18446744073709551615⟩, SimpleLinearFunction,
        upPortions 10 false 0 554000, 10, U64MAX, 33300000000000, 10⟩
        : NeuronsFundParticipation).neurons_fund_reserves)
      = upPortions 10 false 0 554000 from rfl]
  exact diffAux_up 33300000000000 10 (by omega) 554000 0

theorem totals_up_554000 :
    total_amount_icp_e8s
      ((⟨⟨0, 33300000000000, 10, 18446744073709551615⟩, SimpleLinearFunction,
        upPortions 33300000000000 false 0 554000,
        33300000000000, U64MAX, 33300000000000, 33300000000000⟩
        : NeuronsFundParticipation).neurons_fund_reserves)
      - total_amount_icp_e8s
      ((⟨⟨0, 33300000000000, 10, 18446744073709551615⟩, SimpleLinearFunction,
        upPortions 10 false 0 554000, 10, U64MAX, 33300000000000, 10⟩
        : NeuronsFundParticipation).neurons_fund_reserves)
      ≠ total_amount_icp_e8s (upPortions (33300000000000 - 10) false 0 554000) := by
  rw [show ((⟨⟨0, 33300000000000, 10, 18446744073709551615⟩, SimpleLinearFunction,
        upPortions 33300000000000 false 0 554000,
        33300000000000, U64MAX, 33300000000000, 33300000000000⟩
        : NeuronsFundParticipation).neurons_fund_reserves)
      = upPortions 33300000000000 false 0 554000 from rfl,
    show ((⟨⟨0, 33300000000000, 10, 18446744073709551615⟩, SimpleLinearFunction,
        upPortions 10 false 0 554000, 10, U64MAX, 33300000000000, 10⟩
        : NeuronsFundParticipation).neurons_fund_reserves)
      = upPortions 10 false 0 554000 from rfl]
  rw [total_amount_eq_min, total_amount_eq_min, total_amount_eq_min,
    amountSum_up 33300000000000 false 554000 0, amountSum_up 10 false 554000 0,
    amountSum_up (33300000000000 - 10) false 554000 0]
  decide

/-- C1 counterexample to the unconditional claim: a fund of 554000
maximal-maturity neurons produces an initial snapshot whose exact amount
sum exceeds `u64::MAX`, so the saturating totals report
`total(initial) = u64::MAX` and `total(refund) = u64::MAX` while
`total(final) = 5540000 > 0`, and the claimed equation fails. -/
theorem conservation_of_refunds_counterexample :
    ∃ (init fin : NeuronsFundParticipation) (refund : List NeuronsFundNeuronPortion),
      NeuronsFundParticipation.new ⟨0, 33300000000000, 10, 18446744073709551615⟩
        (upNeurons 0 554000) SimpleLinearFunction = .value (.ok init) ∧
      init.from_initial_participation 10 = .value (.ok fin) ∧
      NeuronsFundSnapshot.diff init.neurons_fund_reserves fin.neurons_fund_reserves
        = .ok refund ∧
      total_amount_icp_e8s init.neurons_fund_reserves
          - total_amount_icp_e8s fin.neurons_fund_reserves
        ≠ total_amount_icp_e8s refund :=
  ⟨⟨⟨0, 33300000000000, 10, 18446744073709551615⟩, SimpleLinearFunction,
      upPortions 33300000000000 false 0 554000,
      33300000000000, U64MAX, 33300000000000, 33300000000000⟩,
    ⟨⟨0, 33300000000000, 10, 18446744073709551615⟩, SimpleLinearFunction,
      upPortions 10 false 0 554000, 10, U64MAX, 33300000000000, 10⟩,
    upPortions (33300000000000 - 10) false 0 554000,
    new_up 554000 (by omega), from_initial_up 554000, diff_up_554000, totals_up_554000⟩
